import Mathlib

/-!
Verification of the CapRover API client core (caprover_api/caprover_api.py).

This file gives a shallow embedding of the parts of the client with real
control flow — the retry decorator, the gateway response checker, the
build-readiness poller, the environment-variable merge of update_app,
get_app, the one-click-app variable resolver, and the dependency-ordered
bundle deployer — and proves (or refutes) the specified properties of each.

Python strings are modelled as `List Char`, Python dicts as association
lists with in-place overwrite on update (matching dict semantics for
duplicate-free key lists), machine integers as `Nat`, and raised
exceptions as explicit error results.
-/

namespace Caprover

/-! ## Retry decorator (caprover_api.py, `retry`, lines 25-78)

The decorator keeps a fresh `Counter` of retries per exception class for
every top-level call of the wrapped function.  On an exception it scans
the configured `exception_settings` dict in insertion order and uses the
settings of the first configured class the exception is an instance of;
while that class's counter is below its budget it increments the counter,
sleeps for the configured delay and calls the operation again, otherwise
it re-raises the original exception.

The operation is modelled as a function from the zero-based attempt index
to an `Except` value; `inst e k` models Python's `isinstance(e, k)`. -/

structure RetrySettings where
  times : Nat
  delay : Nat
deriving DecidableEq, Repr

/-- Result of a run of the retry wrapper: the value or the re-raised
exception, together with the list of sleep durations performed (in order)
and the total number of calls made to the wrapped operation. -/
inductive RetryResult (ε α : Type) where
  | ok (a : α) (sleeps : List Nat) (calls : Nat)
  | raised (e : ε) (sleeps : List Nat) (calls : Nat)
  | fuelOut
deriving DecidableEq, Repr

/-- Python's first-match scan of the `exception_settings` dict:
`for key, settings in exception_settings.items(): if isinstance(e, key)`. -/
def classify {ε κ : Type} (inst : ε → κ → Bool) (cfg : List (κ × RetrySettings))
    (e : ε) : Option (κ × RetrySettings) :=
  cfg.find? (fun kv => inst e kv.1)

/-- The `while True` retry loop.  `counters` models the per-class
`retries_by_exc` Counter; `attempt` is the number of operation calls made
so far.  An exception not matching any configured class escapes the
`except` clause and propagates directly. -/
def retryLoop {ε α κ : Type} [DecidableEq κ] (inst : ε → κ → Bool)
    (cfg : List (κ × RetrySettings)) (op : Nat → Except ε α) :
    Nat → (κ → Nat) → List Nat → Nat → RetryResult ε α
  | _, _, _, 0 => .fuelOut
  | attempt, counters, sleeps, fuel + 1 =>
    match op attempt with
    | .ok a => .ok a sleeps (attempt + 1)
    | .error e =>
      match classify inst cfg e with
      | none => .raised e sleeps (attempt + 1)
      | some (k, s) =>
        if counters k < s.times then
          retryLoop inst cfg op (attempt + 1)
            (fun k2 => if k2 = k then counters k + 1 else counters k2)
            (sleeps ++ [s.delay]) fuel
        else
          .raised e sleeps (attempt + 1)

/-- Sum of all configured budgets; one more than this bounds the number of
loop iterations, since every retry increments one bounded counter. -/
def retryFuel (cfg : List (Caprover.RetrySettings)) : Nat :=
  (cfg.map RetrySettings.times).sum

/-- One top-level call of a function wrapped by the retry decorator:
`retries_by_exc = Counter()` starts every per-class counter at zero. -/
def retryCall {ε α κ : Type} [DecidableEq κ] (inst : ε → κ → Bool)
    (cfg : List (κ × RetrySettings)) (op : Nat → Except ε α) : RetryResult ε α :=
  retryLoop inst cfg op 0 (fun _ => 0) [] (retryFuel (cfg.map Prod.snd) + 1)

/-! ## Gateway response checker (`CaproverAPI._check_errors`, lines 150-168) -/

/-- Parsed JSON body of a gateway response: its `status` field and its
`description` field (`response_json.get('description', '')`). -/
structure ResponseBody where
  status : Nat
  description : List Char
deriving DecidableEq, Repr

/-- An HTTP response: the transport status code and the JSON body. -/
structure HttpResponse where
  statusCode : Nat
  body : ResponseBody
deriving DecidableEq, Repr

/-- Outcome of `_check_errors`: the raised `TooManyRequestsError`, the
raised generic `Exception(description)`, or the returned parsed body. -/
inductive CheckResult where
  | tooManyRequests
  | fatal (description : List Char)
  | ok (body : ResponseBody)
deriving DecidableEq, Repr

/-- Model of `CaproverAPI._check_errors`: HTTP 429 raises
`TooManyRequestsError` before the body is even parsed; otherwise a body
status outside `[STATUS_OK, STATUS_OK_PARTIALLY]` (100 and 102) raises
`Exception(description)` and an ok status returns the parsed body. -/
def checkErrors (r : HttpResponse) : CheckResult :=
  if r.statusCode = 429 then
    .tooManyRequests
  else if r.body.status = 100 ∨ r.body.status = 102 then
    .ok r.body
  else
    .fatal r.body.description

/-! ## App lookup (`CaproverAPI.get_app`, lines 337-342) -/

/-- An app definition as listed by the gateway; `payload` stands for all
the remaining fields of the definition dict. -/
structure AppDef where
  appName : List Char
  payload : Nat
deriving DecidableEq, Repr

/-- Result of `get_app`: the first matching app definition, or the empty
dict `{}` returned when no listed app has the requested name. -/
inductive GetAppResult where
  | found (app : AppDef)
  | empty
deriving DecidableEq, Repr

/-- Model of `CaproverAPI.get_app`: scan the listed `appDefinitions` in
order and return the first whose `appName` equals the requested name,
falling through to `{}`. -/
def getApp (apps : List AppDef) (appName : List Char) : GetAppResult :=
  match apps.find? (fun a => a.appName = appName) with
  | some a => .found a
  | none => .empty

/-! ## Build waiter (`CaproverAPI._wait_until_app_ready`, lines 303-313)

Each loop iteration decrements the hardcoded `timeout = 60` budget,
sleeps one second, fetches the app info and returns it if the app is no
longer building; an exhausted budget raises the timeout exception.  The
poll results are modelled as a stream indexed by the zero-based poll
number.  Both `create_app` (line 603) and `deploy_app` (line 489) call
this same method with no budget argument. -/

/-- App info as fetched by one poll: the `isAppBuilding` flag and the rest
of the payload. -/
structure AppInfo where
  isAppBuilding : Bool
  payload : Nat
deriving DecidableEq, Repr

/-- Outcome of the wait: the returned info together with the number of
polls performed (each preceded by a one-second sleep), or the raised
timeout exception after the recorded number of polls. -/
inductive WaitResult where
  | ready (info : AppInfo) (polls : Nat)
  | timedOut (polls : Nat)
deriving DecidableEq, Repr

/-- The `while timeout:` loop body of `_wait_until_app_ready`. -/
def waitLoop (stream : Nat → AppInfo) : Nat → Nat → WaitResult
  | 0, polls => .timedOut polls
  | t + 1, polls =>
    if (stream polls).isAppBuilding then waitLoop stream t (polls + 1)
    else .ready (stream polls) (polls + 1)

/-- Model of `_wait_until_app_ready`, with its hardcoded `timeout = 60`. -/
def waitUntilAppReady (stream : Nat → AppInfo) : WaitResult :=
  waitLoop stream 60 0

/-- The wait performed by `create_app` after registering the app: a plain
call of `_wait_until_app_ready` with no budget argument. -/
def postCreateWait (stream : Nat → AppInfo) : WaitResult :=
  waitUntilAppReady stream

/-- The wait performed by `deploy_app` after triggering the build: a plain
call of `_wait_until_app_ready` with no budget argument. -/
def postDeployWait (stream : Nat → AppInfo) : WaitResult :=
  waitUntilAppReady stream

/-! ## Python dict operations

Association-list model of a Python dict.  `pySet m k v` is `m[k] = v`:
it overwrites the value in place when the key is present (keeping its
position) and appends the pair otherwise; on key-duplicate-free lists this
is exactly dict assignment.  `lookupKV` is `m.get(k)`. -/

def lookupKV {β : Type} (m : List (List Char × β)) (k : List Char) : Option β :=
  match m with
  | [] => none
  | kv :: rest => if kv.1 = k then some kv.2 else lookupKV rest k

def hasKey {β : Type} (m : List (List Char × β)) (k : List Char) : Bool :=
  m.any (fun kv => kv.1 = k)

def pySet {β : Type} (m : List (List Char × β)) (k : List Char) (v : β) :
    List (List Char × β) :=
  if hasKey m k then m.map (fun kv => if kv.1 = k then (k, v) else kv)
  else m ++ [(k, v)]

/-- Python `d.update(other)` / building a dict from pairs: assign the
pairs left to right. -/
def pyUpdate {β : Type} (m : List (List Char × β)) (other : List (List Char × β)) :
    List (List Char × β) :=
  other.foldl (fun acc kv => pySet acc kv.1 kv.2) m

/-! ## Environment-variable merge (`CaproverAPI.update_app`, lines 712-725)

`update_app` turns the remote app's `envVars` list of
`{"key": .., "value": ..}` entries into a dict (later duplicates
overwriting earlier ones, as in the dict comprehension), applies
`.update(environment_variables)` when the supplied mapping is non-empty,
and serialises the dict back into an entry list for the payload. -/

def updateAppEnvVars (currentEnvVars : List (List Char × List Char))
    (environmentVariables : List (List Char × List Char)) :
    List (List Char × List Char) :=
  let currentAsDict := pyUpdate [] currentEnvVars
  if environmentVariables.isEmpty then currentAsDict
  else pyUpdate currentAsDict environmentVariables

/-! ## Text substitution

Python `str.replace(old, new)` replaces the non-overlapping occurrences
of `old` left to right.  Strings are `List Char`. -/

def replaceAll (pat repl : List Char) : List Char → List Char
  | [] => []
  | c :: rest =>
    if h : pat ≠ [] ∧ pat.isPrefixOf (c :: rest) then
      repl ++ replaceAll pat repl ((c :: rest).drop pat.length)
    else
      c :: replaceAll pat repl rest
termination_by s => s.length
decreasing_by
  · simp only [List.length_drop, List.length_cons]
    have : 0 < pat.length := List.length_pos.mpr h.1
    omega
  · simp

/-! ## Random-hex directive resolution (`_resolve_app_variables`, lines 205-214)

`re.finditer(r"\$\$cap_gen_random_hex\((\d+)\)", raw_app_data)` iterates
the leftmost non-overlapping matches of the original text; for each match
the loop replaces every occurrence of the matched text (`match.group(0)`)
in the current text with `secrets.token_hex(n)[:n]`, where `n` is the
parsed digit group.  `gen i n` models the `secrets.token_hex(n)` output of
the call made at iteration `i` (2·n lowercase hex characters). -/

def hexDirectiveHead : List Char := "$$cap_gen_random_hex(".toList

/-- Python `int()` of a digit string. -/
def digitsToNat (ds : List Char) : Nat :=
  ds.foldl (fun n c => n * 10 + (c.toNat - 48)) 0

/-- The full text of a directive match with digit group `ds` (the
`match.group(0)` used by `str.replace`). -/
def dirPat (ds : List Char) : List Char :=
  hexDirectiveHead ++ ds ++ [')']

/-- Try to match the directive regex at the start of `s`; on success
return the digit group and the text after the closing parenthesis. -/
def tryParseDirective (s : List Char) : Option (List Char × List Char) :=
  if hexDirectiveHead.isPrefixOf s then
    let afterHead := s.drop hexDirectiveHead.length
    let ds := afterHead.takeWhile (fun c => c.isDigit)
    let rest := afterHead.drop ds.length
    if ds.isEmpty then none
    else if rest.head? = some ')' then some (ds, rest.tail) else none
  else none

/-- The leftmost non-overlapping directive matches of `re.finditer`, as
the list of their digit groups in order of occurrence. -/
def findDirectives : List Char → List (List Char)
  | [] => []
  | c :: rest =>
    match h : tryParseDirective (c :: rest) with
    | some (ds, after) => ds :: findDirectives after
    | none => findDirectives rest
termination_by s => s.length
decreasing_by
  · -- a successful parse consumed at least the directive head, so the
    -- remainder is strictly shorter than the input
    show after.length < (c :: rest).length
    unfold tryParseDirective at h
    by_cases hp : hexDirectiveHead.isPrefixOf (c :: rest)
    · simp only [hp, if_true] at h
      have hlen : hexDirectiveHead.length ≤ (c :: rest).length := by
        rcases List.isPrefixOf_iff_prefix.mp hp with ⟨t, ht⟩
        simp [← ht]
      by_cases he :
          (List.takeWhile (fun c => c.isDigit) ((c :: rest).drop hexDirectiveHead.length)).isEmpty
      · simp [he] at h
      · rw [if_neg he] at h
        by_cases hr : (((c :: rest).drop hexDirectiveHead.length).drop
            (List.takeWhile (fun c => c.isDigit)
              ((c :: rest).drop hexDirectiveHead.length)).length).head? = some ')'
        · rw [if_pos hr] at h
          simp only [Option.some.injEq, Prod.mk.injEq] at h
          have hne : ((c :: rest).drop hexDirectiveHead.length).drop
              (List.takeWhile (fun c => c.isDigit)
                ((c :: rest).drop hexDirectiveHead.length)).length ≠ [] := by
            intro hnil; rw [hnil] at hr; simp at hr
          have h1 : after.length + 1 = (((c :: rest).drop hexDirectiveHead.length).drop
              (List.takeWhile (fun c => c.isDigit)
                ((c :: rest).drop hexDirectiveHead.length)).length).length := by
            rw [← h.2]
            rw [List.length_tail]
            have := List.length_pos.mpr hne
            omega
          have h2 : hexDirectiveHead.length = 21 := by decide
          simp only [List.length_drop, h2] at h1 hlen
          omega
        · rw [if_neg hr] at h
          exact absurd h (by simp)
    · simp [hp] at h
  · simp

/-- The random-hex pass of `_resolve_app_variables`: iterate the matches
found in the original text and, for the `i`-th match, replace every
occurrence of its text in the current text by `token_hex(n)[:n]`. -/
def resolveRandomHex (gen : Nat → Nat → List Char) (s : List Char) : List Char :=
  ((findDirectives s).enum).foldl
    (fun cur x =>
      let n := digitsToNat x.2
      replaceAll (dirPat x.2) ((gen x.1 n).take n) cur) s

/-! ## Bundle variable resolution (`_resolve_app_variables`, lines 216-253) -/

/-- The implicit variable ids injected by `_resolve_app_variables`. -/
def capAppnameTok : List Char := "$$cap_appname".toList

def capRootDomainTok : List Char := "$$cap_root_domain".toList

/-- The `app_variables.update(...)` call of lines 216-221: assign the two
implicit entries into the caller-supplied mapping, in dict-literal order. -/
def injectImplicits (vars : List (List Char × List Char))
    (capAppName rootDomain : List Char) : List (List Char × List Char) :=
  pyUpdate vars [(capAppnameTok, capAppName), (capRootDomainTok, rootDomain)]

/-- The `defaultValue` field of a declared variable: absent from the JSON
(`.get('defaultValue', '')` yields the empty string), JSON `null`
(yields Python `None`), or a string. -/
inductive DefaultValue where
  | absent
  | null
  | val (s : List Char)
deriving DecidableEq, Repr

/-- A declared entry of `caproverOneClickApp.variables`. -/
structure VariableSpec where
  id : List Char
  defaultValue : DefaultValue
  validRegex : Option (List Char)
deriving DecidableEq, Repr

/-- Python `pattern.strip('/')`. -/
def stripSlashes (p : List Char) : List Char :=
  ((p.dropWhile (fun c => c = '/')).reverse.dropWhile (fun c => c = '/')).reverse

/-- The message of the exception raised in automated mode:
`'Missing or Invalid value for >>id<<'`. -/
def errMsgFor (id : List Char) : List Char :=
  "Missing or Invalid value for >>".toList ++ id ++ "<<".toList

/-- Evaluation of lines 229-234 for one declared variable: compute
`default_value` and decide `is_valid`.  Returns the accepted default
value, or `none` when `is_invalid`.  A `None` default fails outright; a
default string is checked with `re.search(validRegex.strip('/'), default)`
where an absent `validRegex` is `'.*'`, and `re.search('.*', s)` matches
every string `s` (including the empty one), so that case is `some`
unconditionally.  `reSearch pat s` models `re.search(pat, s) is not None`
for the remaining, bundle-declared patterns. -/
def specDefault (reSearch : List Char → List Char → Bool) (spec : VariableSpec) :
    Option (List Char) :=
  match spec.defaultValue with
  | .null => none
  | .absent =>
    match spec.validRegex with
    | none => some []
    | some p => if reSearch (stripSlashes p) [] then some [] else none
  | .val s =>
    match spec.validRegex with
    | none => some s
    | some p => if reSearch (stripSlashes p) s then some s else none

/-- The `for app_variable in variables:` loop of lines 227-248.  Declared
variables already present in the mapping are skipped; otherwise the
resolved default is validated, and an invalid one raises in automated
mode or takes the operator's input (`inputs` is the sequence of
`input()` answers, stored without validation) otherwise. -/
def processVariablesGo (reSearch : List Char → List Char → Bool)
    (inputs : Nat → List Char) (automated : Bool) :
    List VariableSpec → List (List Char × List Char) → Nat →
    Except (List Char) (List (List Char × List Char))
  | [], vars, _ => .ok vars
  | spec :: rest, vars, prompts =>
    match lookupKV vars spec.id with
    | some _ => processVariablesGo reSearch inputs automated rest vars prompts
    | none =>
      match specDefault reSearch spec with
      | some d =>
        processVariablesGo reSearch inputs automated rest (pySet vars spec.id d) prompts
      | none =>
        if automated then .error (errMsgFor spec.id)
        else
          processVariablesGo reSearch inputs automated rest
            (pySet vars spec.id (inputs prompts)) (prompts + 1)

def processVariables (reSearch : List Char → List Char → Bool)
    (inputs : Nat → List Char) (automated : Bool) (specs : List VariableSpec)
    (vars : List (List Char × List Char)) :
    Except (List Char) (List (List Char × List Char)) :=
  processVariablesGo reSearch inputs automated specs vars 0

/-- The substitution pass of lines 249-252: for every mapping entry in
iteration order, replace every occurrence of the variable id in the
current text with its value. -/
def substituteVariables (vars : List (List Char × List Char))
    (text : List Char) : List Char :=
  vars.foldl (fun cur kv => replaceAll kv.1 kv.2 cur) text

/-- Model of `_resolve_app_variables` end to end: random-hex expansion of
the raw text, implicit-variable injection, default resolution over the
declared variable specs (the parsed `caproverOneClickApp.variables` of
the expanded text), then the textual substitution pass. -/
def resolveAppVariables (reSearch : List Char → List Char → Bool)
    (gen : Nat → Nat → List Char) (inputs : Nat → List Char)
    (raw : List Char) (specs : List VariableSpec)
    (capAppName rootDomain : List Char)
    (appVariables : List (List Char × List Char)) (automated : Bool) :
    Except (List Char) (List Char) :=
  let raw1 := resolveRandomHex gen raw
  let vars1 := injectImplicits appVariables capAppName rootDomain
  match processVariables reSearch inputs automated specs vars1 with
  | .error m => .error m
  | .ok vars2 => .ok (substituteVariables vars2 raw1)

/-! ## One-click bundle deployer (`deploy_one_click_app`, lines 385-452)

The deployer iterates `while set(apps_to_deploy) != set(apps_deployed)`,
and in each pass walks the services in insertion order, skipping those
already deployed and those with a dependency outside `apps_deployed`; a
deployable service gets the single-service rollout `create_app`,
`update_app`, `deploy_app` and is appended to `apps_deployed`.  The model
records the deployment order and the emitted gateway-call trace; the
unbounded `while` loop is given `bundle.length` passes of fuel, which the
theorems show suffices for acyclic closed bundles (on a cyclic bundle the
Python loop never terminates, modelled by `none`). -/

structure Service where
  name : List Char
  dependsOn : List (List Char)
deriving DecidableEq, Repr

inductive RolloutCall where
  | create (appName : List Char)
  | update (appName : List Char)
  | deploy (appName : List Char)
deriving DecidableEq, Repr

/-- The per-service rollout calls, grouped per service in deployment
order. -/
def rolloutCalls (order : List (List Char)) : List RolloutCall :=
  (order.map (fun n => [RolloutCall.create n, RolloutCall.update n, RolloutCall.deploy n])).flatten

structure DeployState where
  deployed : List (List Char)
  calls : List RolloutCall
deriving DecidableEq, Repr

/-- The single-service rollout: `create_app`, `update_app`, `deploy_app`,
then `apps_deployed.append(service_name)`. -/
def rolloutService (st : DeployState) (svc : Service) : DeployState :=
  { deployed := st.deployed ++ [svc.name]
    calls := st.calls ++
      [RolloutCall.create svc.name, RolloutCall.update svc.name, RolloutCall.deploy svc.name] }

/-- One iteration of the `for service_name, service_data in
services.items()` loop: skip a deployed service, skip one whose
`depends_on` is not contained in `apps_deployed`, roll out otherwise. -/
def passStep (st : DeployState) (svc : Service) : DeployState :=
  if svc.name ∈ st.deployed then st
  else if ∀ d ∈ svc.dependsOn, d ∈ st.deployed then rolloutService st svc
  else st

/-- One full pass over the services in insertion order. -/
def onePass (bundle : List Service) (st : DeployState) : DeployState :=
  bundle.foldl passStep st

def bundleNames (bundle : List Service) : List (List Char) :=
  bundle.map Service.name

/-- The loop guard `set(apps_to_deploy) == set(apps_deployed)`. -/
def allDeployed (bundle : List Service) (st : DeployState) : Prop :=
  (∀ n ∈ bundleNames bundle, n ∈ st.deployed) ∧
    (∀ n ∈ st.deployed, n ∈ bundleNames bundle)

instance (bundle : List Service) (st : DeployState) : Decidable (allDeployed bundle st) := by
  unfold allDeployed; infer_instance

/-- The `while set(apps_to_deploy) != set(apps_deployed)` loop, with an
explicit pass budget standing in for the unbounded iteration. -/
def deployLoop (bundle : List Service) : Nat → DeployState → Option DeployState
  | 0, st => if allDeployed bundle st then some st else none
  | fuel + 1, st =>
    if allDeployed bundle st then some st
    else deployLoop bundle fuel (onePass bundle st)

/-- The deployment portion of `deploy_one_click_app` on the parsed,
resolved bundle: run the passes from an empty deployed set. -/
def deployOneClickApp (bundle : List Service) : Option DeployState :=
  deployLoop bundle bundle.length ⟨[], []⟩

/-- The dependency relation of a bundle: `dependsEdge bundle d n` holds
when the service named `n` lists `d` in its `depends_on`. -/
def dependsEdge (bundle : List Service) (d n : List Char) : Prop :=
  ∃ svc ∈ bundle, svc.name = n ∧ d ∈ svc.dependsOn

/-- Invariant of the deployment loop: the deployed list has no repeats,
contains only bundle service names, every deployed service had all of its
dependencies deployed strictly before it, and the call trace is exactly
the grouped rollout calls of the deployed services in order. -/
def DeployInv (bundle : List Service) (st : DeployState) : Prop :=
  st.deployed.Nodup ∧
  (∀ n ∈ st.deployed, n ∈ bundleNames bundle) ∧
  (∀ svc ∈ bundle, ∀ (i : Nat) (h : i < st.deployed.length),
    st.deployed.get ⟨i, h⟩ = svc.name → ∀ d ∈ svc.dependsOn, d ∈ st.deployed.take i) ∧
  st.calls = rolloutCalls st.deployed

/-! ## Concrete fixtures used by witnesses and counterexamples -/

/-- A poll stream that still reports building at each of the first 60
polls and would report ready from poll 60 on. -/
def cexStream : Nat → AppInfo := fun i => if i < 60 then ⟨true, 0⟩ else ⟨false, 7⟩

/-- A poll stream that reports building for 30 polls, ready after. -/
def readyStream : Nat → AppInfo := fun i => if i < 30 then ⟨true, 1⟩ else ⟨false, 2⟩

/-- Exception classes as naturals with no subclassing. -/
def instEq : Nat → Nat → Bool := fun e k => e == k

/-- An operation that raises class-0 errors on its first call only. -/
def opOnceFail : Nat → Except Nat Nat := fun i => if i = 0 then .error 0 else .ok 42

/-- An operation that raises a class-0 error on every call. -/
def opAlwaysFail : Nat → Except Nat Nat := fun _ => .error 0

/-- An instance relation where runtime class 1 is a subclass of class 0
(`isinstance(e, k)` with `e` of class `e`). -/
def instSub : Nat → Nat → Bool := fun e k => e == k || (e == 1 && k == 0)

/-- An operation raising a class-1 error on its first call only. -/
def opSubFail : Nat → Except Nat Nat := fun i => if i = 0 then .error 1 else .ok 99

/-- An operation raising a class-1 error on every call. -/
def opSubAlways : Nat → Except Nat Nat := fun _ => .error 1

/-- A two-service bundle whose insertion order lists `B` (which depends
on `A`) before `A`. -/
def twoServiceBundle : List Service :=
  [⟨"B".toList, ["A".toList]⟩, ⟨"A".toList, []⟩]

/-- A text with two occurrences of the same random-hex directive. -/
def cexHexText : List Char :=
  "$$cap_gen_random_hex(4) $$cap_gen_random_hex(4)".toList

/-- A token-hex oracle returning a different hex string on each call. -/
def cexGen : Nat → Nat → List Char :=
  fun i _ => if i = 0 then "aaaaaaaa".toList else "bbbbbbbb".toList

/-- The declared variable of the test fixture with no default and no
pattern. -/
def dockerImageSpec : VariableSpec :=
  ⟨"$$cap_docker_image".toList, .absent, none⟩

/-- A lowercase hexadecimal character, the alphabet of
`secrets.token_hex` output. -/
def isLowerHex (c : Char) : Bool :=
  c.isDigit || (decide ('a' ≤ c) && decide (c ≤ 'f'))

/-- A well-formed token-hex oracle: the call at iteration `i` with
argument `n` yields `2 * n` lowercase hex characters. -/
def hexOracle : Nat → Nat → List Char :=
  fun i n => List.replicate (2 * n) (if i = 0 then 'a' else 'b')

/-! ## Build waiter lemmas and claim C6 -/

theorem waitLoop_ready (stream : Nat → AppInfo) :
    ∀ (k t polls : Nat), k < t →
    (∀ i, i < k → (stream (polls + i)).isAppBuilding = true) →
    (stream (polls + k)).isAppBuilding = false →
    waitLoop stream t polls = .ready (stream (polls + k)) (polls + k + 1) := by
  intro k
  induction k with
  | zero =>
    intro t polls ht _ hk
    obtain ⟨t2, rfl⟩ : ∃ t2, t = t2 + 1 := ⟨t - 1, by omega⟩
    simp only [Nat.add_zero] at hk
    simp [waitLoop, hk]
  | succ k ih =>
    intro t polls ht hb hk
    obtain ⟨t2, rfl⟩ : ∃ t2, t = t2 + 1 := ⟨t - 1, by omega⟩
    simp only [waitLoop]
    rw [if_pos (show (stream polls).isAppBuilding = true by simpa using hb 0 (by omega))]
    have hrec := ih t2 (polls + 1) (by omega)
      (fun i hi => by
        have := hb (i + 1) (by omega)
        rw [show polls + 1 + i = polls + (i + 1) by omega]
        exact this)
      (by rw [show polls + 1 + k = polls + (k + 1) by omega]; exact hk)
    rw [hrec, show polls + 1 + k = polls + (k + 1) by omega]

theorem waitLoop_timeout (stream : Nat → AppInfo) :
    ∀ (t polls : Nat),
    (∀ i, i < t → (stream (polls + i)).isAppBuilding = true) →
    waitLoop stream t polls = .timedOut (polls + t) := by
  intro t
  induction t with
  | zero => intro polls _; simp [waitLoop]
  | succ t ih =>
    intro polls hb
    simp only [waitLoop]
    rw [if_pos (show (stream polls).isAppBuilding = true by simpa using hb 0 (by omega))]
    rw [ih (polls + 1) (fun i hi => by
      have := hb (i + 1) (by omega)
      rw [show polls + 1 + i = polls + (i + 1) by omega]
      exact this)]
    rw [show polls + 1 + t = polls + (t + 1) by omega]

/-- Claim C6, amended: the build waiter polls the app's info at a fixed
one-second cadence (one `time.sleep(1)` before each poll), returns the
last fetched info as soon as a poll reports the app is not building and
performs no further poll afterward, and raises the timeout error if every
poll reports building — but the tick budget is the fixed constant 60, not
configurable, and the post-create and post-deploy waits share that same
budget. -/
theorem waitUntilAppReady_spec (stream : Nat → AppInfo) :
    (∀ k, k < 60 →
      (∀ i, i < k → (stream i).isAppBuilding = true) →
      (stream k).isAppBuilding = false →
      waitUntilAppReady stream = .ready (stream k) (k + 1)) ∧
    ((∀ i, i < 60 → (stream i).isAppBuilding = true) →
      waitUntilAppReady stream = .timedOut 60) ∧
    postCreateWait stream = postDeployWait stream := by
  refine ⟨?_, ?_, rfl⟩
  · intro k hk hall hnb
    have := waitLoop_ready stream k 60 0 hk
      (fun i hi => by simpa using hall i hi) (by simpa using hnb)
    simpa [waitUntilAppReady] using this
  · intro hall
    have := waitLoop_timeout stream 60 0 (fun i hi => by simpa using hall i hi)
    simpa [waitUntilAppReady] using this

/-- Witness for claim C6 at a concrete stream becoming ready at the 31st
poll. -/
theorem waitUntilAppReady_spec_witness :
    waitUntilAppReady readyStream = .ready ⟨false, 2⟩ 31 ∧
    postCreateWait readyStream = postDeployWait readyStream := by
  constructor
  · have h := (waitUntilAppReady_spec readyStream).1 30 (by decide)
      (fun i hi => by simp [readyStream, hi]) (by decide)
    have h30 : readyStream 30 = ⟨false, 2⟩ := by decide
    rw [h30] at h
    exact h
  · exact (waitUntilAppReady_spec readyStream).2.2

/-- Counterexample to claim C6 as stated: the tick budget is not
configurable and has no distinct defaults — on a stream that reports
building for the first 60 polls and ready afterwards, both the post-create
wait and the post-deploy wait raise the timeout after exactly the same
fixed 60 polls. -/
theorem waitUntilAppReady_counterexample :
    postCreateWait cexStream = .timedOut 60 ∧
    postDeployWait cexStream = .timedOut 60 ∧
    (cexStream 60).isAppBuilding = false := by
  decide

/-! ## Claim C8: gateway response checking -/

/-- Claim C8: `_check_errors` raises `TooManyRequestsError` whenever the
HTTP status code is 429, regardless of the body; otherwise it returns the
parsed body iff the body status is an ok value (100 or 102), and raises a
fatal error carrying the description for every other status. -/
theorem checkErrors_spec (r : HttpResponse) :
    (r.statusCode = 429 → checkErrors r = .tooManyRequests) ∧
    (r.statusCode ≠ 429 →
      ((checkErrors r = .ok r.body) ↔ (r.body.status = 100 ∨ r.body.status = 102)) ∧
      (¬(r.body.status = 100 ∨ r.body.status = 102) →
        checkErrors r = .fatal r.body.description)) := by
  unfold checkErrors
  constructor
  · intro h; rw [if_pos h]
  · intro h
    rw [if_neg h]
    constructor
    · by_cases hs : r.body.status = 100 ∨ r.body.status = 102
      · simp [hs]
      · simp [hs]
    · intro hs; rw [if_neg hs]

/-- Witness for claim C8 at three concrete responses. -/
theorem checkErrors_spec_witness :
    checkErrors ⟨429, ⟨1000, "x".toList⟩⟩ = .tooManyRequests ∧
    checkErrors ⟨200, ⟨100, "ok".toList⟩⟩ = .ok ⟨100, "ok".toList⟩ ∧
    checkErrors ⟨200, ⟨1106, "bad".toList⟩⟩ = .fatal "bad".toList := by
  refine ⟨(checkErrors_spec ⟨429, ⟨1000, "x".toList⟩⟩).1 rfl, ?_, ?_⟩
  · exact ((checkErrors_spec ⟨200, ⟨100, "ok".toList⟩⟩).2 (by decide)).1.mpr (Or.inl rfl)
  · exact ((checkErrors_spec ⟨200, ⟨1106, "bad".toList⟩⟩).2 (by decide)).2 (by decide)

/-! ## Claim C10: app lookup -/

theorem find?_append_first {α : Type} (p : α → Bool) :
    ∀ (pre : List α) (a : α) (post : List α),
      (∀ b ∈ pre, p b = false) → p a = true →
      (pre ++ a :: post).find? p = some a := by
  intro pre
  induction pre with
  | nil =>
    intro a post _ ha
    simpa using List.find?_cons_of_pos post ha
  | cons b pre ih =>
    intro a post hpre ha
    rw [List.cons_append]
    rw [List.find?_cons_of_neg _ (by simp [hpre b (by simp)])]
    exact ih a post (fun x hx => hpre x (by simp [hx])) ha

/-- Claim C10: `get_app` returns the empty dict (without raising) when no
listed app matches the requested name, and the first matching app
definition otherwise. -/
theorem getApp_spec (apps : List AppDef) (appName : List Char) :
    ((∀ a ∈ apps, a.appName ≠ appName) → getApp apps appName = .empty) ∧
    (∀ (pre : List AppDef) (a : AppDef) (post : List AppDef),
      apps = pre ++ a :: post → a.appName = appName →
      (∀ b ∈ pre, b.appName ≠ appName) →
      getApp apps appName = .found a) := by
  constructor
  · intro h
    unfold getApp
    have hnone : apps.find? (fun a => a.appName = appName) = none := by
      rw [List.find?_eq_none]
      intro x hx
      simp [h x hx]
    rw [hnone]
  · intro pre a post happ ha hpre
    unfold getApp
    subst happ
    rw [find?_append_first _ pre a post (fun b hb => by simp [hpre b hb]) (by simp [ha])]

/-- Witness for claim C10: a miss returns the empty dict, and of two apps
with the requested name the first is returned. -/
theorem getApp_spec_witness :
    getApp [⟨"a".toList, 1⟩] "b".toList = .empty ∧
    getApp [⟨"x".toList, 1⟩, ⟨"b".toList, 2⟩, ⟨"b".toList, 3⟩] "b".toList =
      .found ⟨"b".toList, 2⟩ := by
  constructor
  · exact (getApp_spec [⟨"a".toList, 1⟩] "b".toList).1 (by decide)
  · exact (getApp_spec _ "b".toList).2 [⟨"x".toList, 1⟩] ⟨"b".toList, 2⟩ [⟨"b".toList, 3⟩]
      rfl (by decide) (by decide)

/-! ## Python dict lemmas -/

theorem hasKey_nil {β : Type} (k : List Char) :
    hasKey ([] : List (List Char × β)) k = false := rfl

theorem hasKey_cons_iff {β : Type} (kv : List Char × β) (m : List (List Char × β))
    (k : List Char) : hasKey (kv :: m) k = true ↔ (kv.1 = k ∨ hasKey m k = true) := by
  simp only [hasKey, List.any_cons, Bool.or_eq_true, decide_eq_true_eq]

theorem hasKey_cons_false_iff {β : Type} (kv : List Char × β) (m : List (List Char × β))
    (k : List Char) : hasKey (kv :: m) k = false ↔ (kv.1 ≠ k ∧ hasKey m k = false) := by
  simp only [hasKey, List.any_cons, Bool.or_eq_false_iff, decide_eq_false_iff_not]

theorem hasKey_iff_mem {β : Type} (m : List (List Char × β)) (k : List Char) :
    hasKey m k = true ↔ k ∈ m.map Prod.fst := by
  induction m with
  | nil => simp [hasKey]
  | cons kv rest ih =>
    rw [hasKey_cons_iff, ih]
    simp only [List.map_cons, List.mem_cons]
    constructor
    · rintro (h | h)
      · exact Or.inl h.symm
      · exact Or.inr h
    · rintro (h | h)
      · exact Or.inl h.symm
      · exact Or.inr h

theorem lookup_none_of_not_has {β : Type} (m : List (List Char × β)) (k : List Char)
    (h : hasKey m k = false) : lookupKV m k = none := by
  induction m with
  | nil => rfl
  | cons kv rest ih =>
    rw [hasKey_cons_false_iff] at h
    simp only [lookupKV, if_neg h.1]
    exact ih h.2

theorem lookup_overwrite {β : Type} (m : List (List Char × β)) (k : List Char) (v : β)
    (h : hasKey m k = true) :
    lookupKV (m.map (fun kv => if kv.1 = k then (k, v) else kv)) k = some v := by
  induction m with
  | nil => simp [hasKey] at h
  | cons kv rest ih =>
    by_cases hk : kv.1 = k
    · simp only [List.map_cons, if_pos hk, lookupKV, if_pos rfl, if_true]
    · rw [hasKey_cons_iff] at h
      have h2 : hasKey rest k = true := h.resolve_left hk
      simp only [List.map_cons, if_neg hk, lookupKV, if_neg hk]
      exact ih h2

theorem lookup_append_new {β : Type} (m : List (List Char × β)) (k : List Char) (v : β)
    (h : hasKey m k = false) : lookupKV (m ++ [(k, v)]) k = some v := by
  induction m with
  | nil => simp only [List.nil_append, lookupKV, if_pos rfl, if_true]
  | cons kv rest ih =>
    rw [hasKey_cons_false_iff] at h
    simp only [List.cons_append, lookupKV, if_neg h.1]
    exact ih h.2

theorem lookupKV_pySet_self {β : Type} (m : List (List Char × β)) (k : List Char) (v : β) :
    lookupKV (pySet m k v) k = some v := by
  unfold pySet
  by_cases h : hasKey m k = true
  · rw [if_pos h]; exact lookup_overwrite m k v h
  · rw [if_neg h]; exact lookup_append_new m k v (by simpa using h)

theorem lookup_map_overwrite_ne {β : Type} (m : List (List Char × β)) (k : List Char) (v : β)
    (k2 : List Char) (h : k2 ≠ k) :
    lookupKV (m.map (fun kv => if kv.1 = k then (k, v) else kv)) k2 = lookupKV m k2 := by
  induction m with
  | nil => rfl
  | cons kv rest ih =>
    by_cases hk : kv.1 = k
    · have hkk2 : ¬(k = k2) := fun hc => h hc.symm
      have hkv : ¬(kv.1 = k2) := by rw [hk]; exact hkk2
      simp only [List.map_cons, if_pos hk, lookupKV, if_neg hkk2, if_neg hkv]
      exact ih
    · simp only [List.map_cons, if_neg hk, lookupKV]
      by_cases hk2 : kv.1 = k2
      · simp only [if_pos hk2]
      · simp only [if_neg hk2]; exact ih

theorem lookup_append_ne {β : Type} (m : List (List Char × β)) (k : List Char) (v : β)
    (k2 : List Char) (h : k2 ≠ k) :
    lookupKV (m ++ [(k, v)]) k2 = lookupKV m k2 := by
  induction m with
  | nil =>
    have hkk2 : ¬(k = k2) := fun hc => h hc.symm
    simp only [List.nil_append, lookupKV, if_neg hkk2]
  | cons kv rest ih =>
    simp only [List.cons_append, lookupKV]
    by_cases hk2 : kv.1 = k2
    · simp only [if_pos hk2]
    · simp only [if_neg hk2]; exact ih

theorem lookupKV_pySet_ne {β : Type} (m : List (List Char × β)) (k : List Char) (v : β)
    (k2 : List Char) (h : k2 ≠ k) :
    lookupKV (pySet m k v) k2 = lookupKV m k2 := by
  unfold pySet
  by_cases hh : hasKey m k = true
  · rw [if_pos hh]; exact lookup_map_overwrite_ne m k v k2 h
  · rw [if_neg hh]; exact lookup_append_ne m k v k2 h

theorem keys_map_overwrite {β : Type} (m : List (List Char × β)) (k : List Char) (v : β) :
    (m.map (fun kv => if kv.1 = k then (k, v) else kv)).map Prod.fst = m.map Prod.fst := by
  induction m with
  | nil => rfl
  | cons kv rest ih =>
    by_cases hk : kv.1 = k
    · simp only [List.map_cons, if_pos hk, ih]
      rw [← hk]
    · simp only [List.map_cons, if_neg hk, ih]

theorem hasKey_pySet_iff {β : Type} (m : List (List Char × β)) (k : List Char) (v : β)
    (k2 : List Char) :
    hasKey (pySet m k v) k2 = true ↔ (hasKey m k2 = true ∨ k2 = k) := by
  unfold pySet
  by_cases hh : hasKey m k = true
  · rw [if_pos hh, hasKey_iff_mem, keys_map_overwrite, ← hasKey_iff_mem]
    constructor
    · exact Or.inl
    · rintro (h | h)
      · exact h
      · rw [h]; exact hh
  · rw [if_neg hh, hasKey_iff_mem]
    simp only [List.map_append, List.map_cons, List.map_nil, List.mem_append,
      List.mem_cons, List.not_mem_nil, or_false]
    rw [← hasKey_iff_mem]

theorem nodup_keys_pySet {β : Type} (m : List (List Char × β)) (k : List Char) (v : β)
    (h : (m.map Prod.fst).Nodup) : ((pySet m k v).map Prod.fst).Nodup := by
  unfold pySet
  by_cases hh : hasKey m k = true
  · rw [if_pos hh, keys_map_overwrite]; exact h
  · rw [if_neg hh]
    simp only [List.map_append, List.map_cons, List.map_nil]
    rw [List.nodup_append]
    refine ⟨h, by simp, ?_⟩
    intro x hx
    simp only [List.mem_cons, List.not_mem_nil, or_false]
    intro hxk
    rw [hxk] at hx
    exact absurd ((hasKey_iff_mem m k).mpr hx) (by simpa using hh)

theorem pyUpdate_cons {β : Type} (m : List (List Char × β)) (kv : List Char × β)
    (t : List (List Char × β)) :
    pyUpdate m (kv :: t) = pyUpdate (pySet m kv.1 kv.2) t := rfl

theorem lookupKV_pyUpdate_not_has {β : Type} (s : List (List Char × β)) :
    ∀ (m : List (List Char × β)) (k : List Char), hasKey s k = false →
    lookupKV (pyUpdate m s) k = lookupKV m k := by
  induction s with
  | nil => intro m k _; rfl
  | cons kv t ih =>
    intro m k h
    rw [hasKey_cons_false_iff] at h
    rw [pyUpdate_cons, ih (pySet m kv.1 kv.2) k h.2]
    exact lookupKV_pySet_ne m kv.1 kv.2 k (fun hc => h.1 hc.symm)

theorem lookupKV_pyUpdate_has {β : Type} (s : List (List Char × β)) :
    ∀ (m : List (List Char × β)) (k : List Char), (s.map Prod.fst).Nodup →
    hasKey s k = true → lookupKV (pyUpdate m s) k = lookupKV s k := by
  induction s with
  | nil => intro m k _ h; simp [hasKey] at h
  | cons kv t ih =>
    intro m k hnodup h
    simp only [List.map_cons, List.nodup_cons] at hnodup
    rw [pyUpdate_cons]
    by_cases hk : kv.1 = k
    · have htk : hasKey t k = false := by
        by_contra hc
        simp only [Bool.not_eq_false] at hc
        exact hnodup.1 (by rw [hk]; exact (hasKey_iff_mem t k).mp hc)
      rw [lookupKV_pyUpdate_not_has t (pySet m kv.1 kv.2) k htk]
      rw [← hk, lookupKV_pySet_self]
      simp only [lookupKV, if_pos rfl, if_true]
    · rw [hasKey_cons_iff] at h
      have h2 := h.resolve_left hk
      rw [ih (pySet m kv.1 kv.2) k hnodup.2 h2]
      simp only [lookupKV, if_neg hk]

theorem hasKey_pyUpdate_iff {β : Type} (s : List (List Char × β)) :
    ∀ (m : List (List Char × β)) (k : List Char),
    hasKey (pyUpdate m s) k = true ↔ (hasKey m k = true ∨ hasKey s k = true) := by
  induction s with
  | nil =>
    intro m k
    constructor
    · exact fun h => Or.inl h
    · rintro (h | h)
      · exact h
      · rw [hasKey_nil] at h; exact absurd h (by simp)
  | cons kv t ih =>
    intro m k
    rw [pyUpdate_cons, ih, hasKey_pySet_iff, hasKey_cons_iff]
    constructor
    · rintro ((h | h) | h)
      · exact Or.inl h
      · exact Or.inr (Or.inl h.symm)
      · exact Or.inr (Or.inr h)
    · rintro (h | h | h)
      · exact Or.inl (Or.inl h)
      · exact Or.inl (Or.inr h.symm)
      · exact Or.inr h

theorem nodup_keys_pyUpdate {β : Type} (s : List (List Char × β)) :
    ∀ (m : List (List Char × β)), (m.map Prod.fst).Nodup →
    ((pyUpdate m s).map Prod.fst).Nodup := by
  induction s with
  | nil => intro m h; exact h
  | cons kv t ih =>
    intro m h
    rw [pyUpdate_cons]
    exact ih _ (nodup_keys_pySet m kv.1 kv.2 h)

/-! ## Claim C9: environment-variable merge of update_app -/

theorem updateAppEnvVars_eq (current supplied : List (List Char × List Char)) :
    updateAppEnvVars current supplied = pyUpdate (pyUpdate [] current) supplied := by
  unfold updateAppEnvVars
  by_cases h : supplied.isEmpty
  · have hnil : supplied = [] := by
      cases supplied with
      | nil => rfl
      | cons kv t => simp at h
    subst hnil
    simp [pyUpdate]
  · simp [h]

/-- Claim C9: the configuration payload of `update_app` merges the
supplied environment variables over those already present on the remote
app — the merged mapping has duplicate-free keys, contains a key iff it is
an existing or a supplied key (no key is removed), the supplied value wins
on a common key, and a key not supplied keeps its existing value. -/
theorem updateApp_env_merge (current supplied : List (List Char × List Char))
    (hc : (current.map Prod.fst).Nodup) (hs : (supplied.map Prod.fst).Nodup) :
    (((updateAppEnvVars current supplied).map Prod.fst).Nodup) ∧
    (∀ k, hasKey (updateAppEnvVars current supplied) k = true ↔
      (hasKey current k = true ∨ hasKey supplied k = true)) ∧
    (∀ k, hasKey supplied k = true →
      lookupKV (updateAppEnvVars current supplied) k = lookupKV supplied k) ∧
    (∀ k, hasKey supplied k = false →
      lookupKV (updateAppEnvVars current supplied) k = lookupKV current k) := by
  rw [updateAppEnvVars_eq]
  refine ⟨?_, ?_, ?_, ?_⟩
  · exact nodup_keys_pyUpdate supplied _ (nodup_keys_pyUpdate current [] (by simp))
  · intro k
    rw [hasKey_pyUpdate_iff, hasKey_pyUpdate_iff]
    simp [hasKey]
  · intro k hk
    exact lookupKV_pyUpdate_has supplied _ k hs hk
  · intro k hk
    rw [lookupKV_pyUpdate_not_has supplied _ k hk]
    by_cases hck : hasKey current k = true
    · exact lookupKV_pyUpdate_has current [] k hc hck
    · rw [lookupKV_pyUpdate_not_has current [] k (by simpa using hck)]
      rw [lookup_none_of_not_has current k (by simpa using hck)]
      rfl

/-- Witness for claim C9 at the concrete scenario of the spec: supplying
ANOTHER=foobar while the remote app has EXISTING_ENV_VAR=old_value yields
a payload containing both entries. -/
theorem updateApp_env_merge_witness :
    lookupKV (updateAppEnvVars
      [("EXISTING_ENV_VAR".toList, "old_value".toList)]
      [("ANOTHER".toList, "foobar".toList)]) "ANOTHER".toList =
      some "foobar".toList ∧
    lookupKV (updateAppEnvVars
      [("EXISTING_ENV_VAR".toList, "old_value".toList)]
      [("ANOTHER".toList, "foobar".toList)]) "EXISTING_ENV_VAR".toList =
      some "old_value".toList := by
  constructor
  · rw [(updateApp_env_merge
      [("EXISTING_ENV_VAR".toList, "old_value".toList)]
      [("ANOTHER".toList, "foobar".toList)] (by decide) (by decide)).2.2.1
      "ANOTHER".toList (by decide)]
    decide
  · rw [(updateApp_env_merge
      [("EXISTING_ENV_VAR".toList, "old_value".toList)]
      [("ANOTHER".toList, "foobar".toList)] (by decide) (by decide)).2.2.2
      "EXISTING_ENV_VAR".toList (by decide)]
    decide

/-! ## Retry loop lemmas and claims C2, C7 -/

theorem retryLoop_ok {ε α κ : Type} [DecidableEq κ] (inst : ε → κ → Bool)
    (k : κ) (st : RetrySettings) (op : Nat → Except ε α) (e : ε) (v : α)
    (hinst : inst e k = true) :
    ∀ (m attempt : Nat) (counters : κ → Nat) (sleeps : List Nat) (fuel : Nat),
      (∀ i, i < m → op (attempt + i) = .error e) →
      op (attempt + m) = .ok v →
      counters k + m ≤ st.times →
      m < fuel →
      retryLoop inst [(k, st)] op attempt counters sleeps fuel =
        .ok v (sleeps ++ List.replicate m st.delay) (attempt + m + 1) := by
  intro m
  induction m with
  | zero =>
    intro attempt counters sleeps fuel _ hok _ hfuel
    obtain ⟨f, rfl⟩ : ∃ f, fuel = f + 1 := ⟨fuel - 1, by omega⟩
    have hop : op attempt = Except.ok v := by simpa using hok
    simp only [retryLoop, hop]
    simp
  | succ m ih =>
    intro attempt counters sleeps fuel herr hok hbud hfuel
    obtain ⟨f, rfl⟩ : ∃ f, fuel = f + 1 := ⟨fuel - 1, by omega⟩
    have hop : op attempt = Except.error e := by simpa using herr 0 (by omega)
    have hcl : classify inst [(k, st)] e = some (k, st) := by
      simp [classify, hinst]
    simp only [retryLoop, hop, hcl]
    rw [if_pos (show counters k < st.times by omega)]
    have hrec := ih (attempt + 1)
      (fun k2 => if k2 = k then counters k + 1 else counters k2)
      (sleeps ++ [st.delay]) f
      (fun i hi => by
        rw [show attempt + 1 + i = attempt + (i + 1) by omega]
        exact herr (i + 1) (by omega))
      (by rw [show attempt + 1 + m = attempt + (m + 1) by omega]; exact hok)
      (by show (if k = k then counters k + 1 else counters k) + m ≤ st.times
          rw [if_pos rfl]; omega)
      (by omega)
    rw [hrec]
    rw [List.append_assoc]
    rw [show [st.delay] ++ List.replicate m st.delay = List.replicate (m + 1) st.delay from
      by simp [List.replicate_succ]]
    rw [show attempt + 1 + m + 1 = attempt + (m + 1) + 1 by omega]

theorem retryLoop_exhaust {ε α κ : Type} [DecidableEq κ] (inst : ε → κ → Bool)
    (k : κ) (st : RetrySettings) (op : Nat → Except ε α) (e : ε)
    (hinst : inst e k = true) :
    ∀ (r attempt : Nat) (counters : κ → Nat) (sleeps : List Nat) (fuel : Nat),
      counters k + r = st.times →
      (∀ i, i ≤ r → op (attempt + i) = .error e) →
      r < fuel →
      retryLoop inst [(k, st)] op attempt counters sleeps fuel =
        .raised e (sleeps ++ List.replicate r st.delay) (attempt + r + 1) := by
  intro r
  induction r with
  | zero =>
    intro attempt counters sleeps fuel hbud herr hfuel
    obtain ⟨f, rfl⟩ : ∃ f, fuel = f + 1 := ⟨fuel - 1, by omega⟩
    have hop : op attempt = Except.error e := by simpa using herr 0 (by omega)
    have hcl : classify inst [(k, st)] e = some (k, st) := by
      simp [classify, hinst]
    simp only [retryLoop, hop, hcl]
    rw [if_neg (show ¬counters k < st.times by omega)]
    simp
  | succ r ih =>
    intro attempt counters sleeps fuel hbud herr hfuel
    obtain ⟨f, rfl⟩ : ∃ f, fuel = f + 1 := ⟨fuel - 1, by omega⟩
    have hop : op attempt = Except.error e := by simpa using herr 0 (by omega)
    have hcl : classify inst [(k, st)] e = some (k, st) := by
      simp [classify, hinst]
    simp only [retryLoop, hop, hcl]
    rw [if_pos (show counters k < st.times by omega)]
    have hrec := ih (attempt + 1)
      (fun k2 => if k2 = k then counters k + 1 else counters k2)
      (sleeps ++ [st.delay]) f
      (by show (if k = k then counters k + 1 else counters k) + r = st.times
          rw [if_pos rfl]; omega)
      (fun i hi => by
        rw [show attempt + 1 + i = attempt + (i + 1) by omega]
        exact herr (i + 1) (by omega))
      (by omega)
    rw [hrec]
    rw [List.append_assoc]
    rw [show [st.delay] ++ List.replicate r st.delay = List.replicate (r + 1) st.delay from
      by simp [List.replicate_succ]]
    rw [show attempt + 1 + r + 1 = attempt + (r + 1) + 1 by omega]

/-- Claim C2, amended: for an operation wrapped with a single configured
error class of budget `times` and delay `delay`, if the operation raises
that class exactly K times then succeeds with K ≤ times, the wrapped call
returns the success value after sleeping exactly K times for the
configured delay; if the operation keeps failing past the budget, the
original error propagates after exactly times + 1 attempts of the
operation (the initial attempt plus `times` retries), having slept
`times` times; and the per-class counters start from zero on every
top-level wrapped call. -/
theorem retry_single_class_policy {ε α κ : Type} [DecidableEq κ] (inst : ε → κ → Bool)
    (k : κ) (st : RetrySettings) (op : Nat → Except ε α) (e : ε) (v : α)
    (hinst : inst e k = true) :
    (∀ K, K ≤ st.times → (∀ i, i < K → op i = .error e) → op K = .ok v →
      retryCall inst [(k, st)] op = .ok v (List.replicate K st.delay) (K + 1)) ∧
    ((∀ i, i ≤ st.times → op i = .error e) →
      retryCall inst [(k, st)] op =
        .raised e (List.replicate st.times st.delay) (st.times + 1)) ∧
    retryCall inst [(k, st)] op =
      retryLoop inst [(k, st)] op 0 (fun _ => 0) [] (st.times + 1) := by
  have hfuel : retryFuel ([(k, st)].map Prod.snd) = st.times := by
    simp [retryFuel]
  refine ⟨?_, ?_, ?_⟩
  · intro K hK herr hok
    unfold retryCall
    rw [hfuel]
    have := retryLoop_ok inst k st op e v hinst K 0 (fun _ => 0) [] (st.times + 1)
      (fun i hi => by simpa using herr i hi) (by simpa using hok)
      (by show (0 : Nat) + K ≤ st.times; omega) (by omega)
    simpa using this
  · intro herr
    unfold retryCall
    rw [hfuel]
    have := retryLoop_exhaust inst k st op e hinst st.times 0 (fun _ => 0) [] (st.times + 1)
      (by show (0 : Nat) + st.times = st.times; omega)
      (fun i hi => by simpa using herr i hi) (by omega)
    simpa using this
  · unfold retryCall
    rw [hfuel]

/-- Witness for claim C2: one transient failure within a budget of two is
retried with one sleep, and a persistently failing operation exhausts the
budget and re-raises. -/
theorem retry_single_class_policy_witness :
    retryCall instEq [(0, ⟨2, 7⟩)] opOnceFail = .ok 42 (List.replicate 1 7) 2 ∧
    retryCall instEq [(0, ⟨2, 7⟩)] opAlwaysFail =
      .raised 0 (List.replicate 2 7) 3 := by
  constructor
  · exact (retry_single_class_policy instEq 0 ⟨2, 7⟩ opOnceFail 0 42 (by decide)).1 1
      (by decide)
      (fun i hi => by
        have : i = 0 := by omega
        subst this
        rfl)
      rfl
  · exact (retry_single_class_policy instEq 0 ⟨2, 7⟩ opAlwaysFail 0 42 (by decide)).2.1
      (fun i _ => rfl)

/-- Counterexample to claim C2 as stated: with a budget of one, a
persistently failing operation is attempted twice (the initial call plus
one retry), not once — the error does not propagate after exactly
`budget` attempts of the operation. -/
theorem retry_attempts_counterexample :
    retryCall instEq [(0, ⟨1, 5⟩)] opAlwaysFail = .raised 0 [5] 2 ∧ (2 : Nat) ≠ 1 := by
  constructor
  · decide
  · decide

theorem classify_first_match {ε κ : Type} (inst : ε → κ → Bool)
    (pre : List (κ × RetrySettings)) (k : κ) (st : RetrySettings)
    (post : List (κ × RetrySettings)) (e : ε)
    (hpre : ∀ kv ∈ pre, inst e kv.1 = false) (hk : inst e k = true) :
    classify inst (pre ++ (k, st) :: post) e = some (k, st) := by
  unfold classify
  exact find?_append_first _ pre (k, st) post (fun kv hkv => by simp [hpre kv hkv]) (by simp [hk])

/-- Claim C7, amended: the retry decorator classifies a failure as the
first configured class of the settings mapping (in insertion order) of
which the failure is an instance — not as the most specific one — and it
retries with that class's settings; a subtype gets its own settings only
when configured before its supertype. -/
theorem retry_first_match_policy {ε α κ : Type} [DecidableEq κ] (inst : ε → κ → Bool)
    (pre : List (κ × RetrySettings)) (k : κ) (st : RetrySettings)
    (post : List (κ × RetrySettings)) (e : ε) (op : Nat → Except ε α) (v : α)
    (hpre : ∀ kv ∈ pre, inst e kv.1 = false) (hk : inst e k = true)
    (hst : 1 ≤ st.times) (hop0 : op 0 = .error e) (hop1 : op 1 = .ok v) :
    classify inst (pre ++ (k, st) :: post) e = some (k, st) ∧
    retryCall inst (pre ++ (k, st) :: post) op = .ok v [st.delay] 2 := by
  have hcl := classify_first_match inst pre k st post e hpre hk
  refine ⟨hcl, ?_⟩
  have hmem : st.times ∈ ((pre ++ (k, st) :: post).map Prod.snd).map RetrySettings.times := by
    have h1 : (k, st) ∈ pre ++ (k, st) :: post := by simp
    have h2 : st ∈ (pre ++ (k, st) :: post).map Prod.snd := List.mem_map_of_mem _ h1
    exact List.mem_map_of_mem _ h2
  have hfuel : st.times ≤ retryFuel ((pre ++ (k, st) :: post).map Prod.snd) := by
    unfold retryFuel
    exact List.single_le_sum (fun x _ => Nat.zero_le x) _ hmem
  obtain ⟨f, hf⟩ : ∃ f, retryFuel ((pre ++ (k, st) :: post).map Prod.snd) + 1 = f + 2 :=
    ⟨retryFuel ((pre ++ (k, st) :: post).map Prod.snd) - 1, by omega⟩
  unfold retryCall
  rw [hf]
  simp only [retryLoop, hop0, hcl]
  rw [if_pos (show (0 : Nat) < st.times by omega)]
  simp only [retryLoop, hop1]
  simp

/-- Witness for claim C7: a subtype configured before an unrelated class
and its supertype is matched to its own settings. -/
theorem retry_first_match_policy_witness :
    classify instSub [(5, ⟨9, 9⟩), (1, ⟨6, 15⟩), (0, ⟨3, 1⟩)] 1 = some (1, ⟨6, 15⟩) ∧
    retryCall instSub [(5, ⟨9, 9⟩), (1, ⟨6, 15⟩), (0, ⟨3, 1⟩)] opSubFail =
      .ok 99 [15] 2 := by
  exact retry_first_match_policy instSub [(5, ⟨9, 9⟩)] 1 ⟨6, 15⟩ [(0, ⟨3, 1⟩)] 1
    opSubFail 99 (by decide) (by decide) (by decide) rfl rfl

/-- Counterexample to claim C7 as stated: with the generic class 0
configured before its subtype 1, a failure of class 1 is classified as
class 0 and retried with class 0's settings (three retries of delay one),
although its most specific configured class is 1 (budget six, delay
fifteen). -/
theorem classify_not_most_specific_counterexample :
    classify instSub [(0, ⟨3, 1⟩), (1, ⟨6, 15⟩)] 1 = some (0, ⟨3, 1⟩) ∧
    instSub 1 1 = true ∧
    retryCall instSub [(0, ⟨3, 1⟩), (1, ⟨6, 15⟩)] opSubAlways =
      .raised 1 (List.replicate 3 1) 4 := by
  refine ⟨by decide, by decide, by decide⟩

/-! ## Deployment loop lemmas and claim C1 -/

theorem passStep_eq_or_rollout (st : DeployState) (svc : Service) :
    passStep st svc = st ∨
    (svc.name ∉ st.deployed ∧ (∀ d ∈ svc.dependsOn, d ∈ st.deployed) ∧
      passStep st svc = rolloutService st svc) := by
  unfold passStep
  by_cases h1 : svc.name ∈ st.deployed
  · left; rw [if_pos h1]
  · rw [if_neg h1]
    by_cases h2 : ∀ d ∈ svc.dependsOn, d ∈ st.deployed
    · right; exact ⟨h1, h2, if_pos h2⟩
    · left; rw [if_neg h2]

theorem onePass_extend (bundle : List Service) :
    ∀ st : DeployState, ∃ ext, (onePass bundle st).deployed = st.deployed ++ ext := by
  induction bundle with
  | nil => intro st; exact ⟨[], by simp [onePass]⟩
  | cons svc rest ih =>
    intro st
    have hcons : onePass (svc :: rest) st = onePass rest (passStep st svc) := rfl
    rcases passStep_eq_or_rollout st svc with h | ⟨_, _, h⟩
    · rw [hcons, h]; exact ih st
    · obtain ⟨ext, hext⟩ := ih (passStep st svc)
      refine ⟨svc.name :: ext, ?_⟩
      rw [hcons, hext, h]
      simp [rolloutService]

theorem mem_onePass_of_mem (bundle : List Service) (st : DeployState) (n : List Char)
    (h : n ∈ st.deployed) : n ∈ (onePass bundle st).deployed := by
  obtain ⟨ext, hext⟩ := onePass_extend bundle st
  rw [hext]
  exact List.mem_append_left _ h

theorem passStep_inv (bundle : List Service) (hnodup : (bundleNames bundle).Nodup)
    (svc : Service) (hsvc : svc ∈ bundle) (st : DeployState) (h : DeployInv bundle st) :
    DeployInv bundle (passStep st svc) := by
  rcases passStep_eq_or_rollout st svc with heq | ⟨hnm, hdeps, heq⟩
  · rw [heq]; exact h
  · rw [heq]
    obtain ⟨hnd, hsub, hget, hcalls⟩ := h
    refine ⟨?_, ?_, ?_, ?_⟩
    · simp only [rolloutService, List.nodup_append, List.nodup_cons, List.not_mem_nil,
        not_false_iff, List.nodup_nil, and_true, true_and]
      refine ⟨hnd, ?_⟩
      intro x hx
      simp only [List.mem_cons, List.not_mem_nil, or_false]
      intro hxn
      rw [hxn] at hx
      exact hnm hx
    · intro n hn
      simp only [rolloutService, List.mem_append, List.mem_cons, List.not_mem_nil,
        or_false] at hn
      rcases hn with hn | hn
      · exact hsub n hn
      · rw [hn]; exact List.mem_map_of_mem _ hsvc
    · intro svc2 hsvc2 i hi hgeti d hd
      simp only [rolloutService] at hi hgeti ⊢
      by_cases hlt : i < st.deployed.length
      · have hg2 : (st.deployed ++ [svc.name]).get ⟨i, hi⟩ = st.deployed.get ⟨i, hlt⟩ := by
          simp only [List.get_eq_getElem]
          exact List.getElem_append_left hlt
        rw [List.take_append_of_le_length (by omega)]
        exact hget svc2 hsvc2 i hlt (by rw [← hg2]; exact hgeti) d hd
      · have hieq : i = st.deployed.length := by
          simp only [List.length_append, List.length_cons, List.length_nil] at hi
          omega
        have hg2 : (st.deployed ++ [svc.name]).get ⟨i, hi⟩ = svc.name := by
          simp only [List.get_eq_getElem]
          exact List.getElem_concat_length _ _ _ hieq _
        have hname : svc2.name = svc.name := by rw [← hgeti, hg2]
        have hsame : svc2 = svc :=
          List.inj_on_of_nodup_map hnodup hsvc2 hsvc hname
        subst hsame
        rw [hieq, List.take_left]
        exact hdeps d hd
    · simp only [rolloutService, hcalls, rolloutCalls, List.map_append, List.map_cons,
        List.map_nil, List.flatten_append, List.flatten_cons, List.flatten_nil,
        List.append_nil]

theorem onePass_inv (bundle : List Service) (hnodup : (bundleNames bundle).Nodup) :
    ∀ (sub : List Service), (∀ svc ∈ sub, svc ∈ bundle) →
    ∀ (st : DeployState), DeployInv bundle st →
    DeployInv bundle (List.foldl passStep st sub) := by
  intro sub
  induction sub with
  | nil => intro _ st h; exact h
  | cons svc rest ih =>
    intro hmem st h
    rw [List.foldl_cons]
    exact ih (fun s hs => hmem s (by simp [hs])) (passStep st svc)
      (passStep_inv bundle hnodup svc (hmem svc (by simp)) st h)

theorem onePass_progress (bundle : List Service)
    (hclosed : ∀ svc ∈ bundle, ∀ d ∈ svc.dependsOn, d ∈ bundleNames bundle)
    (hwf : WellFounded (dependsEdge bundle)) (st : DeployState)
    (hrem : ∃ n, n ∈ bundleNames bundle ∧ n ∉ st.deployed) :
    ∃ m, m ∈ bundleNames bundle ∧ m ∉ st.deployed ∧ m ∈ (onePass bundle st).deployed := by
  obtain ⟨m, hmS, hmin⟩ := hwf.has_min
    {n | n ∈ bundleNames bundle ∧ n ∉ st.deployed}
    (by obtain ⟨n, h1, h2⟩ := hrem; exact ⟨n, h1, h2⟩)
  obtain ⟨hmName, hmNot⟩ := hmS
  refine ⟨m, hmName, hmNot, ?_⟩
  obtain ⟨svc, hsvc, hname⟩ := List.mem_map.mp hmName
  have hdeps : ∀ d ∈ svc.dependsOn, d ∈ st.deployed := by
    intro d hd
    by_contra hdn
    have hedge : dependsEdge bundle d m := ⟨svc, hsvc, hname, hd⟩
    exact hmin d ⟨hclosed svc hsvc d hd, hdn⟩ hedge
  obtain ⟨b1, b2, hb⟩ := List.append_of_mem hsvc
  have hsplit : onePass bundle st = List.foldl passStep (passStep (onePass b1 st) svc) b2 := by
    rw [hb]
    simp [onePass, List.foldl_append]
  rw [hsplit]
  have hext1 := onePass_extend b1 st
  obtain ⟨ext1, hext1⟩ := hext1
  by_cases hin : svc.name ∈ (onePass b1 st).deployed
  · -- the service was already rolled out earlier in this very pass
    have heq : passStep (onePass b1 st) svc = onePass b1 st := by
      unfold passStep
      rw [if_pos hin]
    rw [heq]
    have hmmem : m ∈ (onePass b1 st).deployed := by rw [← hname]; exact hin
    exact mem_onePass_of_mem b2 (onePass b1 st) m hmmem
  · -- all dependencies were deployed before the pass started, so the
    -- subset check passes and the service is rolled out now
    have hdeps1 : ∀ d ∈ svc.dependsOn, d ∈ (onePass b1 st).deployed := by
      intro d hd
      rw [hext1]
      exact List.mem_append_left _ (hdeps d hd)
    have heq : passStep (onePass b1 st) svc = rolloutService (onePass b1 st) svc := by
      unfold passStep
      rw [if_neg hin, if_pos hdeps1]
    rw [heq]
    have hmem2 : m ∈ (rolloutService (onePass b1 st) svc).deployed := by
      simp [rolloutService, hname]
    exact mem_onePass_of_mem b2 _ m hmem2

theorem deployLoop_complete (bundle : List Service)
    (hnodup : (bundleNames bundle).Nodup)
    (hclosed : ∀ svc ∈ bundle, ∀ d ∈ svc.dependsOn, d ∈ bundleNames bundle)
    (hwf : WellFounded (dependsEdge bundle)) :
    ∀ (fuel : Nat) (st : DeployState), DeployInv bundle st →
    ((bundleNames bundle).filter (fun n => decide (n ∉ st.deployed))).length ≤ fuel →
    ∃ final, deployLoop bundle fuel st = some final ∧ DeployInv bundle final ∧
      (∀ n, n ∈ bundleNames bundle ↔ n ∈ final.deployed) := by
  intro fuel
  induction fuel with
  | zero =>
    intro st hinv hm
    have hall : allDeployed bundle st := by
      constructor
      · intro n hn
        by_contra hc
        have hmem : n ∈ (bundleNames bundle).filter (fun n => decide (n ∉ st.deployed)) :=
          List.mem_filter.mpr ⟨hn, by simpa using hc⟩
        have hlen0 : ((bundleNames bundle).filter
            (fun n => decide (n ∉ st.deployed))).length = 0 := by omega
        rw [List.length_eq_zero.mp hlen0] at hmem
        exact absurd hmem (List.not_mem_nil n)
      · exact hinv.2.1
    refine ⟨st, ?_, hinv, ?_⟩
    · simp [deployLoop, hall]
    · intro n
      exact ⟨fun h => hall.1 n h, fun h => hall.2 n h⟩
  | succ fuel ih =>
    intro st hinv hm
    by_cases hall : allDeployed bundle st
    · refine ⟨st, ?_, hinv, ?_⟩
      · simp [deployLoop, hall]
      · intro n
        exact ⟨fun h => hall.1 n h, fun h => hall.2 n h⟩
    · have hstep : deployLoop bundle (fuel + 1) st = deployLoop bundle fuel (onePass bundle st) := by
        simp [deployLoop, hall]
      have hrem : ∃ n, n ∈ bundleNames bundle ∧ n ∉ st.deployed := by
        by_contra hc
        push_neg at hc
        exact hall ⟨fun n hn => hc n hn, hinv.2.1⟩
      obtain ⟨m, hmName, hmNot, hmIn⟩ :=
        onePass_progress bundle hclosed hwf st hrem
      have hinv2 : DeployInv bundle (onePass bundle st) :=
        onePass_inv bundle hnodup bundle (fun _ h => h) st hinv
      have hmono : ∀ a, (fun n => decide (n ∉ (onePass bundle st).deployed)) a = true →
          (fun n => decide (n ∉ st.deployed)) a = true := by
        intro a ha
        simp only [decide_eq_true_eq] at ha ⊢
        intro hc
        exact ha (mem_onePass_of_mem bundle st a hc)
      have hsubl := List.monotone_filter_right (bundleNames bundle) hmono
      have hlt : ((bundleNames bundle).filter
          (fun n => decide (n ∉ (onePass bundle st).deployed))).length <
          ((bundleNames bundle).filter (fun n => decide (n ∉ st.deployed))).length := by
        rcases Nat.lt_or_ge ((bundleNames bundle).filter
            (fun n => decide (n ∉ (onePass bundle st).deployed))).length
            ((bundleNames bundle).filter (fun n => decide (n ∉ st.deployed))).length with h | h
        · exact h
        · exfalso
          have heq := hsubl.eq_of_length (Nat.le_antisymm hsubl.length_le h)
          have hm1 : m ∈ (bundleNames bundle).filter (fun n => decide (n ∉ st.deployed)) :=
            List.mem_filter.mpr ⟨hmName, by simpa using hmNot⟩
          rw [← heq] at hm1
          have := (List.mem_filter.mp hm1).2
          simp only [decide_eq_true_eq] at this
          exact this hmIn
      rw [hstep]
      exact ih (onePass bundle st) hinv2 (by omega)

/-- Claim C1: for every bundle whose dependency graph is acyclic (the
`depends_on` relation is well-founded) and closed (every `depends_on`
entry names another service of the bundle), with duplicate-free service
names, `deploy_one_click_app` completes, rolls out every listed service
exactly once, and at the moment a service's rollout begins every one of
its `depends_on` services is already in the deployed set; the gateway
call trace is the per-service rollouts (`create_app`, `update_app`,
`deploy_app`) grouped in deployment order, so all calls of a dependency
precede all calls of its dependents. -/
theorem deploy_one_click_app_spec (bundle : List Service)
    (hnodup : (bundleNames bundle).Nodup)
    (hclosed : ∀ svc ∈ bundle, ∀ d ∈ svc.dependsOn, d ∈ bundleNames bundle)
    (hacyclic : WellFounded (dependsEdge bundle)) :
    ∃ final, deployOneClickApp bundle = some final ∧
      final.deployed.Nodup ∧
      (∀ n, n ∈ final.deployed ↔ n ∈ bundleNames bundle) ∧
      (∀ svc ∈ bundle, ∀ (l1 l2 : List (List Char)),
        final.deployed = l1 ++ svc.name :: l2 → ∀ d ∈ svc.dependsOn, d ∈ l1) ∧
      final.calls = rolloutCalls final.deployed := by
  have hinv0 : DeployInv bundle ⟨[], []⟩ := by
    refine ⟨List.nodup_nil, ?_, ?_, rfl⟩
    · intro n hn; exact absurd hn (List.not_mem_nil n)
    · intro svc _ i hi
      simp at hi
  have hm0 : ((bundleNames bundle).filter
      (fun n => decide (n ∉ (⟨[], []⟩ : DeployState).deployed))).length ≤ bundle.length := by
    have h1 : ((bundleNames bundle).filter
        (fun n => decide (n ∉ (⟨[], []⟩ : DeployState).deployed))).length ≤
        (bundleNames bundle).length := List.length_filter_le _ _
    have h2 : (bundleNames bundle).length = bundle.length := List.length_map _ _
    omega
  obtain ⟨final, hrun, hinv, hiff⟩ :=
    deployLoop_complete bundle hnodup hclosed hacyclic bundle.length ⟨[], []⟩ hinv0 hm0
  refine ⟨final, hrun, hinv.1, fun n => ⟨fun h => hinv.2.1 n h, fun h => (hiff n).mp h⟩,
    ?_, hinv.2.2.2⟩
  intro svc hsvc l1 l2 hdep d hd
  have hi : l1.length < final.deployed.length := by
    rw [hdep]
    simp
  have hgeti : final.deployed.get ⟨l1.length, hi⟩ = svc.name := by
    simp only [List.get_eq_getElem]
    rw [List.getElem_of_eq hdep hi]
    rw [List.getElem_append_right (Nat.le_refl _)]
    simp
  have happly := hinv.2.2.1 svc hsvc l1.length hi hgeti d hd
  rw [hdep, List.take_left] at happly
  exact happly

/-- Witness for claim C1 at the two-service bundle whose insertion order
lists B (depending on A) before A: the deployer completes, and concretely
rolls out A fully (create, update, deploy) before any call of B's
rollout. -/
theorem deploy_one_click_app_spec_witness :
    (∃ final, deployOneClickApp twoServiceBundle = some final ∧
      final.deployed.Nodup ∧
      (∀ n, n ∈ final.deployed ↔ n ∈ bundleNames twoServiceBundle) ∧
      (∀ svc ∈ twoServiceBundle, ∀ (l1 l2 : List (List Char)),
        final.deployed = l1 ++ svc.name :: l2 → ∀ d ∈ svc.dependsOn, d ∈ l1) ∧
      final.calls = rolloutCalls final.deployed) ∧
    deployOneClickApp twoServiceBundle =
      some ⟨["A".toList, "B".toList],
        [RolloutCall.create "A".toList, RolloutCall.update "A".toList,
         RolloutCall.deploy "A".toList, RolloutCall.create "B".toList,
         RolloutCall.update "B".toList, RolloutCall.deploy "B".toList]⟩ := by
  constructor
  · refine deploy_one_click_app_spec twoServiceBundle (by decide) (by decide) ?_
    have hsub : ∀ {d n : List Char}, dependsEdge twoServiceBundle d n →
        (fun x => if x = "B".toList then 1 else 0) d <
          (fun x => if x = "B".toList then 1 else 0) n := by
      rintro d n ⟨svc, hsvc, hname, hd⟩
      have : svc = ⟨"B".toList, ["A".toList]⟩ ∨ svc = ⟨"A".toList, []⟩ := by
        simpa [twoServiceBundle] using hsvc
      rcases this with h | h
      · subst h
        have hdA : d = "A".toList := by simpa using hd
        subst hdA
        rw [← hname]
        decide
      · subst h
        exact absurd hd (by simp)
    exact Subrelation.wf hsub (measure (fun x => if x = "B".toList then 1 else 0)).wf
  · decide

/-! ## Text substitution lemmas

`noMatchBefore pat x rest` says no occurrence of `pat` starts at any
position inside the `x` segment of `x ++ rest`; it lets the `replaceAll`
scan be traced segment by segment. -/

theorem replaceAll_nil (pat repl : List Char) : replaceAll pat repl [] = [] := by
  simp [replaceAll]

theorem replaceAll_skip (pat repl : List Char) :
    ∀ (x rest : List Char),
      (∀ i, i < x.length → pat.isPrefixOf ((x ++ rest).drop i) = false) →
      replaceAll pat repl (x ++ rest) = x ++ replaceAll pat repl rest := by
  intro x
  induction x with
  | nil => intro rest _; simp
  | cons c x2 ih =>
    intro rest h
    have h0 : pat.isPrefixOf (c :: (x2 ++ rest)) = false := by
      have := h 0 (by simp)
      simpa using this
    rw [List.cons_append]
    simp only [replaceAll]
    rw [dif_neg (by
      rintro ⟨_, hp⟩
      rw [h0] at hp
      exact absurd hp (by simp))]
    rw [ih rest (fun i hi => by
      have := h (i + 1) (by simp; omega)
      simpa using this)]
    simp

theorem replaceAll_head_match (pat repl rest : List Char) (hne : pat ≠ []) :
    replaceAll pat repl (pat ++ rest) = repl ++ replaceAll pat repl rest := by
  obtain ⟨p, pt, rfl⟩ : ∃ p pt, pat = p :: pt := by
    cases pat with
    | nil => exact absurd rfl hne
    | cons p pt => exact ⟨p, pt, rfl⟩
  rw [List.cons_append]
  simp only [replaceAll]
  rw [dif_pos ⟨hne, by
    rw [← List.cons_append]
    exact List.isPrefixOf_iff_prefix.mpr ⟨rest, rfl⟩⟩]
  congr 1
  have hdrop : (p :: (pt ++ rest)).drop (p :: pt).length = rest := by
    simp only [List.length_cons, List.drop_succ_cons]
    exact List.drop_left pt rest
  rw [hdrop]

theorem replaceAll_id (pat repl : List Char) :
    ∀ (s : List Char),
      (∀ i, i < s.length → pat.isPrefixOf (s.drop i) = false) →
      replaceAll pat repl s = s := by
  intro s h
  have := replaceAll_skip pat repl s [] (fun i hi => by
    have := h i hi
    simpa using this)
  simpa [replaceAll_nil] using this

theorem no_match_of_no_dollar (pat pt : List Char) (hpat : pat = '$' :: pt)
    (x rest : List Char) (hx : ∀ c ∈ x, c ≠ '$') :
    ∀ i, i < x.length → pat.isPrefixOf ((x ++ rest).drop i) = false := by
  intro i hi
  rw [List.drop_append_of_le_length (by omega)]
  have hne : x.drop i ≠ [] := by
    intro hnil
    have hlen : (x.drop i).length = x.length - i := List.length_drop i x
    rw [hnil] at hlen
    simp at hlen
    omega
  obtain ⟨c, ct, hct⟩ := List.exists_cons_of_ne_nil hne
  have hc : c ∈ x := by
    have : c ∈ x.drop i := by rw [hct]; simp
    exact List.mem_of_mem_drop this
  rw [hct, hpat, List.cons_append, List.isPrefixOf_cons₂]
  have : ('$' == c) = false := by
    simp only [beq_eq_false_iff_ne, ne_eq]
    exact fun hcc => hx c hc hcc.symm
  rw [this]
  simp

theorem isPrefixOf_length_le {l1 l2 : List Char} (h : l1.isPrefixOf l2 = true) :
    l1.length ≤ l2.length := by
  rcases List.isPrefixOf_iff_prefix.mp h with ⟨t, ht⟩
  simp [← ht]

theorem isPrefixOf_append_iff_of_le (pat x z : List Char) (h : pat.length ≤ x.length) :
    pat.isPrefixOf (x ++ z) = pat.isPrefixOf x := by
  rcases hb : pat.isPrefixOf x with _ | _
  · rcases hc : pat.isPrefixOf (x ++ z) with _ | _
    · rfl
    · exfalso
      rcases List.isPrefixOf_iff_prefix.mp hc with ⟨t, ht⟩
      have h1 : pat = x.take pat.length := by
        have h2 := congrArg (fun l => List.take pat.length l) ht
        simpa [List.take_left, List.take_append_of_le_length h] using h2
      have hx : x = pat ++ x.drop pat.length := by
        conv_lhs => rw [← List.take_append_drop pat.length x]
        rw [← h1]
      have hpx : pat.isPrefixOf x = true :=
        List.isPrefixOf_iff_prefix.mpr ⟨x.drop pat.length, hx.symm⟩
      rw [hpx] at hb
      exact absurd hb (by simp)
  · rcases List.isPrefixOf_iff_prefix.mp hb with ⟨t, ht⟩
    rw [← ht, List.append_assoc]
    exact List.isPrefixOf_iff_prefix.mpr ⟨t ++ z, rfl⟩

/-- No occurrence of a `$$`-headed token `pat` starts inside another
`$$`-headed token `'$' :: '$' :: t2` (with no further dollars) that `pat`
does not match at its start. -/
theorem no_match_inside_token (pat p2 t2 rest : List Char)
    (hpat : pat = '$' :: '$' :: p2)
    (ht2 : ∀ c ∈ t2, c ≠ '$') (ht2ne : t2 ≠ [])
    (h0 : pat.isPrefixOf (('$' :: '$' :: t2) ++ rest) = false) :
    ∀ i, i < ('$' :: '$' :: t2).length →
      pat.isPrefixOf ((('$' :: '$' :: t2) ++ rest).drop i) = false := by
  intro i hi
  match i with
  | 0 => simpa using h0
  | 1 =>
    obtain ⟨c, ct, hct⟩ := List.exists_cons_of_ne_nil ht2ne
    have hc : c ∈ t2 := by rw [hct]; simp
    rw [hpat]
    simp only [List.cons_append, List.drop_succ_cons, List.drop_zero]
    rw [hct, List.cons_append, List.isPrefixOf_cons₂, List.isPrefixOf_cons₂]
    have : ('$' == c) = false := by
      simp only [beq_eq_false_iff_ne, ne_eq]
      exact fun hcc => ht2 c hc hcc.symm
    rw [this]
    simp
  | (j + 2) =>
    simp only [List.length_cons] at hi
    simp only [List.cons_append, List.drop_succ_cons]
    have := no_match_of_no_dollar pat ('$' :: p2) hpat t2 rest ht2 j (by omega)
    exact this

/-! ## Implicit-variable injection lemmas and claim C5 -/

theorem mem_pySet_self {β : Type} (m : List (List Char × β)) (k : List Char) (v : β) :
    (k, v) ∈ pySet m k v := by
  unfold pySet
  by_cases h : hasKey m k = true
  · rw [if_pos h]
    have : ∃ kv, kv ∈ m ∧ kv.1 = k := by
      have h2 := h
      unfold hasKey at h2
      rcases List.any_eq_true.mp h2 with ⟨kv, hkv, hp⟩
      exact ⟨kv, hkv, by simpa using hp⟩
    obtain ⟨kv, hkv, hk⟩ := this
    have hmem := List.mem_map_of_mem (fun kv => if kv.1 = k then (k, v) else kv) hkv
    have heq : (fun kv => if kv.1 = k then (k, v) else kv) kv = (k, v) := by
      show (if kv.1 = k then (k, v) else kv) = (k, v)
      rw [if_pos hk]
    rw [heq] at hmem
    exact hmem
  · rw [if_neg h]
    simp

theorem mem_pySet_of_ne {β : Type} (m : List (List Char × β)) (k : List Char) (v : β)
    (kv : List Char × β) (h : kv ∈ m) (hne : kv.1 ≠ k) : kv ∈ pySet m k v := by
  unfold pySet
  by_cases hh : hasKey m k = true
  · rw [if_pos hh]
    have hmem := List.mem_map_of_mem (fun kv => if kv.1 = k then (k, v) else kv) h
    have heq : (fun kv => if kv.1 = k then (k, v) else kv) kv = kv := by
      show (if kv.1 = k then (k, v) else kv) = kv
      rw [if_neg hne]
    rw [heq] at hmem
    exact hmem
  · rw [if_neg hh]
    exact List.mem_append_left _ h

theorem mem_pySet_elim {β : Type} (m : List (List Char × β)) (k : List Char) (v : β)
    (kv : List Char × β) (h : kv ∈ pySet m k v) :
    (kv ∈ m ∧ kv.1 ≠ k) ∨ kv = (k, v) := by
  unfold pySet at h
  by_cases hh : hasKey m k = true
  · rw [if_pos hh] at h
    rcases List.mem_map.mp h with ⟨kv2, hkv2, heq⟩
    by_cases hk2 : kv2.1 = k
    · right
      rw [← heq]
      simp [hk2]
    · left
      rw [← heq]
      simp only [if_neg hk2]
      exact ⟨hkv2, hk2⟩
  · rw [if_neg hh] at h
    rcases List.mem_append.mp h with h2 | h2
    · left
      refine ⟨h2, ?_⟩
      intro hc
      have : hasKey m k = true := by
        unfold hasKey
        exact List.any_eq_true.mpr ⟨kv, h2, by simpa using hc⟩
      exact hh this
    · right
      simpa using h2

theorem injectImplicits_eq (vars : List (List Char × List Char)) (a rd : List Char) :
    injectImplicits vars a rd = pySet (pySet vars capAppnameTok a) capRootDomainTok rd := rfl

theorem capTok_ne : capAppnameTok ≠ capRootDomainTok := by decide

theorem injectImplicits_lookup (vars : List (List Char × List Char)) (a rd : List Char) :
    lookupKV (injectImplicits vars a rd) capAppnameTok = some a ∧
    lookupKV (injectImplicits vars a rd) capRootDomainTok = some rd := by
  rw [injectImplicits_eq]
  constructor
  · rw [lookupKV_pySet_ne _ _ _ _ capTok_ne]
    exact lookupKV_pySet_self _ _ _
  · exact lookupKV_pySet_self _ _ _

theorem injectImplicits_entries (vars : List (List Char × List Char)) (a rd : List Char)
    (hsub : ∀ kv ∈ vars, kv.1 = capAppnameTok ∨ kv.1 = capRootDomainTok) :
    ∀ kv ∈ injectImplicits vars a rd,
      kv = (capAppnameTok, a) ∨ kv = (capRootDomainTok, rd) := by
  intro kv h
  rw [injectImplicits_eq] at h
  rcases mem_pySet_elim _ _ _ _ h with ⟨h2, hne2⟩ | h2
  · rcases mem_pySet_elim _ _ _ _ h2 with ⟨h3, hne3⟩ | h3
    · rcases hsub kv h3 with hk | hk
      · exact absurd hk hne3
      · exact absurd hk hne2
    · exact Or.inl h3
  · exact Or.inr h2

theorem injectImplicits_mem_cA (vars : List (List Char × List Char)) (a rd : List Char) :
    (capAppnameTok, a) ∈ injectImplicits vars a rd := by
  rw [injectImplicits_eq]
  exact mem_pySet_of_ne _ _ _ _ (mem_pySet_self _ _ _) capTok_ne

theorem injectImplicits_mem_cRD (vars : List (List Char × List Char)) (a rd : List Char) :
    (capRootDomainTok, rd) ∈ injectImplicits vars a rd := by
  rw [injectImplicits_eq]
  exact mem_pySet_self _ _ _

theorem not_isPrefixOf_of_mismatch (pat s z : List Char) (j : Nat)
    (hjp : j < pat.length) (hjs : j < s.length)
    (hne : pat.get ⟨j, hjp⟩ ≠ s.get ⟨j, hjs⟩) :
    pat.isPrefixOf (s ++ z) = false := by
  by_contra hc
  simp only [Bool.not_eq_false] at hc
  have hp := List.isPrefixOf_iff_prefix.mp hc
  have hget := hp.getElem (n := j) hjp
  have hj2 : j < (s ++ z).length := by
    rw [List.length_append]; omega
  have hsz : (s ++ z).get ⟨j, hj2⟩ = s.get ⟨j, hjs⟩ := by
    simp only [List.get_eq_getElem]
    exact List.getElem_append_left hjs
  apply hne
  simp only [List.get_eq_getElem] at hsz ⊢
  rw [hget]
  exact hsz

theorem replaceAll_skip_noDollar (pat pt repl : List Char) (hpat : pat = '$' :: pt)
    (x rest : List Char) (hx : ∀ c ∈ x, c ≠ '$') :
    replaceAll pat repl (x ++ rest) = x ++ replaceAll pat repl rest :=
  replaceAll_skip pat repl x rest (no_match_of_no_dollar pat pt hpat x rest hx)

theorem replaceAll_noDollar (pat pt repl : List Char) (hpat : pat = '$' :: pt)
    (s : List Char) (hs : ∀ c ∈ s, c ≠ '$') :
    replaceAll pat repl s = s := by
  apply replaceAll_id
  intro i hi
  have := no_match_of_no_dollar pat pt hpat s [] hs i hi
  simpa using this

theorem replaceAll_skip_token (pat p2 repl : List Char) (hpat : pat = '$' :: '$' :: p2)
    (t2 rest : List Char) (ht2 : ∀ c ∈ t2, c ≠ '$') (ht2ne : t2 ≠ [])
    (h0 : pat.isPrefixOf (('$' :: '$' :: t2) ++ rest) = false) :
    replaceAll pat repl (('$' :: '$' :: t2) ++ rest) =
      ('$' :: '$' :: t2) ++ replaceAll pat repl rest :=
  replaceAll_skip pat repl _ rest (no_match_inside_token pat p2 t2 rest hpat ht2 ht2ne h0)

theorem capAppnameTok_eq : capAppnameTok = '$' :: '$' :: "cap_appname".toList := by decide

theorem capRootDomainTok_eq :
    capRootDomainTok = '$' :: '$' :: "cap_root_domain".toList := by decide

theorem cA_not_pre_of_cRD (z : List Char) :
    capAppnameTok.isPrefixOf (capRootDomainTok ++ z) = false := by
  rw [isPrefixOf_append_iff_of_le _ _ _ (by decide)]
  decide

theorem cRD_not_pre_of_cA (z : List Char) :
    capRootDomainTok.isPrefixOf (capAppnameTok ++ z) = false := by
  refine not_isPrefixOf_of_mismatch _ _ _ 6 (by decide) (by decide) (by decide)

theorem noDollar_append {x y : List Char} (hx : ∀ c ∈ x, c ≠ '$') (hy : ∀ c ∈ y, c ≠ '$') :
    ∀ c ∈ x ++ y, c ≠ '$' := by
  intro c hc
  rcases List.mem_append.mp hc with h | h
  · exact hx c h
  · exact hy c h

theorem replaceAll_cA (a rd pre mid post : List Char) (b1 b2 : Bool)
    (hpre : ∀ c ∈ pre, c ≠ '$') (hmid : ∀ c ∈ mid, c ≠ '$') (hpost : ∀ c ∈ post, c ≠ '$')
    (ha : ∀ c ∈ a, c ≠ '$') (hrd : ∀ c ∈ rd, c ≠ '$') :
    replaceAll capAppnameTok a
      (pre ++ (cond b1 a capAppnameTok ++ (mid ++ (cond b2 rd capRootDomainTok ++ post)))) =
      pre ++ (a ++ (mid ++ (cond b2 rd capRootDomainTok ++ post))) := by
  have hshape : capAppnameTok = '$' :: ('$' :: "cap_appname".toList) := capAppnameTok_eq
  cases b1 with
  | true =>
    simp only [Bool.cond_true]
    cases b2 with
    | true =>
      simp only [Bool.cond_true]
      rw [replaceAll_noDollar _ _ _ hshape _
        (noDollar_append hpre (noDollar_append ha
          (noDollar_append hmid (noDollar_append hrd hpost))))]
    | false =>
      simp only [Bool.cond_false]
      rw [replaceAll_skip_noDollar _ _ _ hshape pre _ hpre]
      rw [replaceAll_skip_noDollar _ _ _ hshape a _ ha]
      rw [replaceAll_skip_noDollar _ _ _ hshape mid _ hmid]
      rw [capRootDomainTok_eq]
      have h0 := cA_not_pre_of_cRD post
      rw [capRootDomainTok_eq] at h0
      rw [replaceAll_skip_token _ ("cap_appname".toList) _ capAppnameTok_eq
        ("cap_root_domain".toList) post (by decide) (by decide) h0]
      rw [replaceAll_noDollar _ _ _ hshape post hpost]
  | false =>
    simp only [Bool.cond_false]
    rw [replaceAll_skip_noDollar _ _ _ hshape pre _ hpre]
    rw [replaceAll_head_match _ _ _ (by decide)]
    rw [replaceAll_skip_noDollar _ _ _ hshape mid _ hmid]
    cases b2 with
    | true =>
      simp only [Bool.cond_true]
      rw [replaceAll_noDollar _ _ _ hshape _ (noDollar_append hrd hpost)]
    | false =>
      simp only [Bool.cond_false]
      rw [capRootDomainTok_eq]
      have h0 := cA_not_pre_of_cRD post
      rw [capRootDomainTok_eq] at h0
      rw [replaceAll_skip_token _ ("cap_appname".toList) _ capAppnameTok_eq
        ("cap_root_domain".toList) post (by decide) (by decide) h0]
      rw [replaceAll_noDollar _ _ _ hshape post hpost]

theorem replaceAll_cRD (a rd pre mid post : List Char) (b1 b2 : Bool)
    (hpre : ∀ c ∈ pre, c ≠ '$') (hmid : ∀ c ∈ mid, c ≠ '$') (hpost : ∀ c ∈ post, c ≠ '$')
    (ha : ∀ c ∈ a, c ≠ '$') (hrd : ∀ c ∈ rd, c ≠ '$') :
    replaceAll capRootDomainTok rd
      (pre ++ (cond b1 a capAppnameTok ++ (mid ++ (cond b2 rd capRootDomainTok ++ post)))) =
      pre ++ (cond b1 a capAppnameTok ++ (mid ++ (rd ++ post))) := by
  have hshape : capRootDomainTok = '$' :: ('$' :: "cap_root_domain".toList) := capRootDomainTok_eq
  cases b2 with
  | true =>
    simp only [Bool.cond_true]
    cases b1 with
    | true =>
      simp only [Bool.cond_true]
      rw [replaceAll_noDollar _ _ _ hshape _
        (noDollar_append hpre (noDollar_append ha
          (noDollar_append hmid (noDollar_append hrd hpost))))]
    | false =>
      simp only [Bool.cond_false]
      rw [replaceAll_skip_noDollar _ _ _ hshape pre _ hpre]
      rw [capAppnameTok_eq]
      have h0 := cRD_not_pre_of_cA (mid ++ (rd ++ post))
      rw [capAppnameTok_eq] at h0
      rw [replaceAll_skip_token _ ("cap_root_domain".toList) _ capRootDomainTok_eq
        ("cap_appname".toList) (mid ++ (rd ++ post)) (by decide) (by decide) h0]
      rw [replaceAll_skip_noDollar _ _ _ hshape mid _ hmid]
      rw [replaceAll_noDollar _ _ _ hshape _ (noDollar_append hrd hpost)]
  | false =>
    simp only [Bool.cond_false]
    cases b1 with
    | true =>
      simp only [Bool.cond_true]
      rw [replaceAll_skip_noDollar _ _ _ hshape pre _ hpre]
      rw [replaceAll_skip_noDollar _ _ _ hshape a _ ha]
      rw [replaceAll_skip_noDollar _ _ _ hshape mid _ hmid]
      rw [replaceAll_head_match _ _ _ (by decide)]
      rw [replaceAll_noDollar _ _ _ hshape post hpost]
    | false =>
      simp only [Bool.cond_false]
      rw [replaceAll_skip_noDollar _ _ _ hshape pre _ hpre]
      rw [capAppnameTok_eq]
      have h0 := cRD_not_pre_of_cA (mid ++ (capRootDomainTok ++ post))
      rw [capAppnameTok_eq] at h0
      rw [replaceAll_skip_token _ ("cap_root_domain".toList) _ capRootDomainTok_eq
        ("cap_appname".toList) (mid ++ (capRootDomainTok ++ post)) (by decide) (by decide) h0]
      rw [replaceAll_skip_noDollar _ _ _ hshape mid _ hmid]
      rw [replaceAll_head_match _ _ _ (by decide)]
      rw [replaceAll_noDollar _ _ _ hshape post hpost]

theorem substitute_state (a rd pre mid post : List Char)
    (hpre : ∀ c ∈ pre, c ≠ '$') (hmid : ∀ c ∈ mid, c ≠ '$') (hpost : ∀ c ∈ post, c ≠ '$')
    (ha : ∀ c ∈ a, c ≠ '$') (hrd : ∀ c ∈ rd, c ≠ '$') :
    ∀ (entries : List (List Char × List Char)) (b1 b2 : Bool),
      (∀ kv ∈ entries, kv = (capAppnameTok, a) ∨ kv = (capRootDomainTok, rd)) →
      ((capAppnameTok, a) ∈ entries ∨ b1 = true) →
      ((capRootDomainTok, rd) ∈ entries ∨ b2 = true) →
      substituteVariables entries
        (pre ++ (cond b1 a capAppnameTok ++ (mid ++ (cond b2 rd capRootDomainTok ++ post)))) =
        pre ++ (a ++ (mid ++ (rd ++ post))) := by
  intro entries
  induction entries with
  | nil =>
    intro b1 b2 _ hb1 hb2
    have hb1t : b1 = true := hb1.resolve_left (by simp)
    have hb2t : b2 = true := hb2.resolve_left (by simp)
    subst hb1t
    subst hb2t
    rfl
  | cons kv rest ih =>
    intro b1 b2 hsub hb1 hb2
    have hstep : substituteVariables (kv :: rest)
        (pre ++ (cond b1 a capAppnameTok ++ (mid ++ (cond b2 rd capRootDomainTok ++ post)))) =
        substituteVariables rest (replaceAll kv.1 kv.2
          (pre ++ (cond b1 a capAppnameTok ++ (mid ++ (cond b2 rd capRootDomainTok ++ post))))) :=
      rfl
    rw [hstep]
    rcases hsub kv (by simp) with hkv | hkv
    · rw [hkv]
      rw [replaceAll_cA a rd pre mid post b1 b2 hpre hmid hpost ha hrd]
      have := ih true b2 (fun kv2 h2 => hsub kv2 (by simp [h2]))
        (Or.inr rfl)
        (by
          rcases hb2 with h | h
          · rcases List.mem_cons.mp h with h2 | h2
            · exfalso
              rw [hkv] at h2
              have : capRootDomainTok = capAppnameTok := congrArg Prod.fst h2
              exact capTok_ne this.symm
            · exact Or.inl h2
          · exact Or.inr h)
      simpa using this
    · rw [hkv]
      rw [replaceAll_cRD a rd pre mid post b1 b2 hpre hmid hpost ha hrd]
      have := ih b1 true (fun kv2 h2 => hsub kv2 (by simp [h2]))
        (by
          rcases hb1 with h | h
          · rcases List.mem_cons.mp h with h2 | h2
            · exfalso
              rw [hkv] at h2
              have : capAppnameTok = capRootDomainTok := congrArg Prod.fst h2
              exact capTok_ne this
            · exact Or.inl h2
          · exact Or.inr h)
        (Or.inr rfl)
      simpa using this

/-- Claim C5: the implicit `$$cap_appname` and `$$cap_root_domain`
entries injected by `_resolve_app_variables` overwrite any caller-supplied
values for those ids, and the substitution pass replaces both tokens
throughout the text with the target app name and the platform root
domain.  The text hypotheses keep the surrounding segments and the
substituted values free of variable tokens (no dollar signs), matching
the prefix-unique-token convention of bundle definitions. -/
theorem resolve_implicit_variables_spec (vars : List (List Char × List Char))
    (capAppName rootDomain : List Char)
    (hsub : ∀ kv ∈ vars, kv.1 = capAppnameTok ∨ kv.1 = capRootDomainTok)
    (pre mid post : List Char)
    (hpre : ∀ c ∈ pre, c ≠ '$') (hmid : ∀ c ∈ mid, c ≠ '$') (hpost : ∀ c ∈ post, c ≠ '$')
    (ha : ∀ c ∈ capAppName, c ≠ '$') (hrd : ∀ c ∈ rootDomain, c ≠ '$') :
    lookupKV (injectImplicits vars capAppName rootDomain) capAppnameTok = some capAppName ∧
    lookupKV (injectImplicits vars capAppName rootDomain) capRootDomainTok = some rootDomain ∧
    substituteVariables (injectImplicits vars capAppName rootDomain)
      (pre ++ (capAppnameTok ++ (mid ++ (capRootDomainTok ++ post)))) =
      pre ++ (capAppName ++ (mid ++ (rootDomain ++ post))) := by
  refine ⟨(injectImplicits_lookup vars capAppName rootDomain).1,
    (injectImplicits_lookup vars capAppName rootDomain).2, ?_⟩
  have := substitute_state capAppName rootDomain pre mid post hpre hmid hpost ha hrd
    (injectImplicits vars capAppName rootDomain) false false
    (injectImplicits_entries vars capAppName rootDomain hsub)
    (Or.inl (injectImplicits_mem_cA vars capAppName rootDomain))
    (Or.inl (injectImplicits_mem_cRD vars capAppName rootDomain))
  simpa using this

/-- Witness for claim C5: a caller mapping that already binds both
implicit ids to junk values still resolves both tokens to the implicit
values. -/
theorem resolve_implicit_variables_spec_witness :
    lookupKV (injectImplicits
        [(capAppnameTok, "junk".toList), (capRootDomainTok, "junk2".toList)]
        "myapp".toList "example.com".toList) capAppnameTok = some "myapp".toList ∧
    lookupKV (injectImplicits
        [(capAppnameTok, "junk".toList), (capRootDomainTok, "junk2".toList)]
        "myapp".toList "example.com".toList) capRootDomainTok = some "example.com".toList ∧
    substituteVariables (injectImplicits
        [(capAppnameTok, "junk".toList), (capRootDomainTok, "junk2".toList)]
        "myapp".toList "example.com".toList)
      ("app: ".toList ++ (capAppnameTok ++ (" on ".toList ++ (capRootDomainTok ++ [])))) =
      "app: ".toList ++ ("myapp".toList ++ (" on ".toList ++ ("example.com".toList ++ []))) := by
  exact resolve_implicit_variables_spec
    [(capAppnameTok, "junk".toList), (capRootDomainTok, "junk2".toList)]
    "myapp".toList "example.com".toList (by decide)
    "app: ".toList " on ".toList [] (by decide) (by decide) (by decide) (by decide) (by decide)

/-! ## Claim C4: declared-variable validation in automated mode -/

/-- Claim C4, amended: for a declared bundle variable whose id is absent
from the augmented caller mapping, automated resolution raises an error
naming the variable id exactly when the resolved default is rejected: a
JSON-null default always fails, and a declared pattern failing
`re.search` against the resolved default (the empty string when the
default is absent) fails — but a missing or empty default with no
declared pattern is validated against the catch-all pattern, which
matches the empty string, and is silently accepted as the empty value. -/
theorem process_variable_automated_spec (reSearch : List Char → List Char → Bool)
    (inputs : Nat → List Char) (spec : VariableSpec)
    (vars : List (List Char × List Char)) (habsent : lookupKV vars spec.id = none) :
    (spec.defaultValue = DefaultValue.null →
      processVariables reSearch inputs true [spec] vars = .error (errMsgFor spec.id)) ∧
    (∀ p, spec.validRegex = some p → spec.defaultValue = DefaultValue.absent →
      reSearch (stripSlashes p) [] = false →
      processVariables reSearch inputs true [spec] vars = .error (errMsgFor spec.id)) ∧
    (∀ p s0, spec.validRegex = some p → spec.defaultValue = DefaultValue.val s0 →
      reSearch (stripSlashes p) s0 = false →
      processVariables reSearch inputs true [spec] vars = .error (errMsgFor spec.id)) ∧
    (spec.validRegex = none → spec.defaultValue = DefaultValue.absent →
      processVariables reSearch inputs true [spec] vars = .ok (pySet vars spec.id [])) ∧
    (∃ l r, errMsgFor spec.id = l ++ spec.id ++ r) := by
  refine ⟨?_, ?_, ?_, ?_, ?_⟩
  · intro hnull
    have hdef : specDefault reSearch spec = none := by
      unfold specDefault
      rw [hnull]
    simp [processVariables, processVariablesGo, habsent, hdef]
  · intro p hp habs hre
    have hdef : specDefault reSearch spec = none := by
      unfold specDefault
      rw [habs, hp]
      simp [hre]
    simp [processVariables, processVariablesGo, habsent, hdef]
  · intro p s0 hp hval hre
    have hdef : specDefault reSearch spec = none := by
      unfold specDefault
      rw [hval, hp]
      simp [hre]
    simp [processVariables, processVariablesGo, habsent, hdef]
  · intro hnone habs
    have hdef : specDefault reSearch spec = some [] := by
      unfold specDefault
      rw [habs, hnone]
    simp [processVariables, processVariablesGo, habsent, hdef]
  · exact ⟨"Missing or Invalid value for >>".toList, "<<".toList, rfl⟩

/-- Witness for claim C4: a variable with a declared pattern rejecting
its missing default raises the id-naming error, while the no-default
no-pattern variable of the test fixture resolves silently to the empty
string. -/
theorem process_variable_automated_spec_witness :
    processVariables (fun _ _ => false) (fun _ => []) true
      [⟨"$$cap_v".toList, DefaultValue.absent, some "x+".toList⟩] [] =
      .error (errMsgFor "$$cap_v".toList) ∧
    processVariables (fun _ _ => false) (fun _ => []) true [dockerImageSpec] [] =
      .ok (pySet [] dockerImageSpec.id []) := by
  constructor
  · exact (process_variable_automated_spec (fun _ _ => false) (fun _ => [])
      ⟨"$$cap_v".toList, DefaultValue.absent, some "x+".toList⟩ [] rfl).2.1
      "x+".toList rfl rfl rfl
  · exact (process_variable_automated_spec (fun _ _ => false) (fun _ => [])
      dockerImageSpec [] rfl).2.2.2.1 rfl rfl

/-- Counterexample to claim C4 as stated: a declared variable with a
missing (hence empty) default and no declared pattern does not raise in
automated mode — it is silently accepted with the empty value. -/
theorem process_variable_counterexample :
    processVariables (fun _ _ => false) (fun _ => []) true [dockerImageSpec] [] =
      .ok [("$$cap_docker_image".toList, [])] := by
  rfl

/-! ## Random-hex directive lemmas and claim C3 -/

theorem hexHead_eq : hexDirectiveHead = '$' :: "$cap_gen_random_hex(".toList := by decide

theorem dirPat_shape (ds : List Char) :
    dirPat ds = '$' :: ("$cap_gen_random_hex(".toList ++ (ds ++ [')'])) := by
  rw [dirPat, hexHead_eq]
  simp

theorem dirPat_ne_nil (ds : List Char) : dirPat ds ≠ [] := by
  rw [dirPat_shape]
  simp

theorem tryParseDirective_not_dollar (c : Char) (rest : List Char) (hc : c ≠ '$') :
    tryParseDirective (c :: rest) = none := by
  have h : hexDirectiveHead.isPrefixOf (c :: rest) = false := by
    rw [hexHead_eq, List.isPrefixOf_cons₂]
    have hcc : ('$' == c) = false := by
      simp only [beq_eq_false_iff_ne, ne_eq]
      exact fun hcc => hc hcc.symm
    rw [hcc]
    simp
  simp [tryParseDirective, h]

theorem takeWhile_digits_paren (ds rest : List Char) (hds : ∀ c ∈ ds, c.isDigit = true) :
    (ds ++ ')' :: rest).takeWhile (fun c => c.isDigit) = ds := by
  induction ds with
  | nil =>
    rw [List.nil_append, List.takeWhile_cons]
    simp
  | cons c t ih =>
    rw [List.cons_append, List.takeWhile_cons]
    rw [if_pos (by simpa using hds c (by simp))]
    rw [ih (fun c2 h2 => hds c2 (by simp [h2]))]

theorem tryParseDirective_dirPat (ds rest : List Char)
    (hds : ∀ c ∈ ds, c.isDigit = true) (hne : ds ≠ []) :
    tryParseDirective (dirPat ds ++ rest) = some (ds, rest) := by
  have hsplit : dirPat ds ++ rest = hexDirectiveHead ++ (ds ++ ')' :: rest) := by
    rw [dirPat]
    simp
  have hpre : hexDirectiveHead.isPrefixOf (dirPat ds ++ rest) = true := by
    rw [hsplit]
    exact List.isPrefixOf_iff_prefix.mpr ⟨_, rfl⟩
  have hdrop : (dirPat ds ++ rest).drop hexDirectiveHead.length = ds ++ ')' :: rest := by
    rw [hsplit]
    exact List.drop_left _ _
  have htw : ((dirPat ds ++ rest).drop hexDirectiveHead.length).takeWhile
      (fun c => c.isDigit) = ds := by
    rw [hdrop]
    exact takeWhile_digits_paren ds rest hds
  have hie : ds.isEmpty = false := by
    cases ds with
    | nil => exact absurd rfl hne
    | cons a t => rfl
  have hdrop2 : ((dirPat ds ++ rest).drop hexDirectiveHead.length).drop ds.length =
      ')' :: rest := by
    rw [hdrop]
    exact List.drop_left _ _
  simp only [tryParseDirective, hpre, if_true, htw, hie, hdrop2]
  simp

theorem findDirectives_nil : findDirectives [] = [] := by
  simp [findDirectives]

theorem findDirectives_skip :
    ∀ (x : List Char), (∀ c ∈ x, c ≠ '$') →
    ∀ (rest : List Char), findDirectives (x ++ rest) = findDirectives rest := by
  intro x
  induction x with
  | nil => intro _ rest; simp
  | cons c x2 ih =>
    intro hx rest
    have htp : tryParseDirective (c :: (x2 ++ rest)) = none :=
      tryParseDirective_not_dollar c _ (hx c (by simp))
    rw [List.cons_append]
    simp only [findDirectives]
    split
    · rename_i ds after heq
      rw [htp] at heq
      cases heq
    · exact ih (fun c2 h2 => hx c2 (by simp [h2])) rest

theorem findDirectives_noDollar (s : List Char) (hs : ∀ c ∈ s, c ≠ '$') :
    findDirectives s = [] := by
  have := findDirectives_skip s hs []
  simpa [findDirectives_nil] using this

theorem findDirectives_dirPat (ds : List Char)
    (hds : ∀ c ∈ ds, c.isDigit = true) (hne : ds ≠ []) (rest : List Char) :
    findDirectives (dirPat ds ++ rest) = ds :: findDirectives rest := by
  have htp : tryParseDirective
      ('$' :: (("$cap_gen_random_hex(".toList ++ (ds ++ [')'])) ++ rest)) = some (ds, rest) := by
    rw [← List.cons_append, ← dirPat_shape]
    exact tryParseDirective_dirPat ds rest hds hne
  rw [dirPat_shape, List.cons_append]
  simp only [findDirectives]
  split
  · rename_i ds2 after heq
    rw [htp] at heq
    simp only [Option.some.injEq, Prod.mk.injEq] at heq
    rw [heq.1, heq.2]
  · rename_i heq
    rw [htp] at heq
    cases heq

theorem isLowerHex_ne_dollar (c : Char) (h : isLowerHex c = true) : c ≠ '$' := by
  intro hc
  rw [hc] at h
  exact absurd h (by decide)

/-- Claim C3, amended: in the random-hex pass every directive occurrence
of requested length N is replaced by a string of exactly N lowercase hex
characters, but two occurrences of the same directive text receive the
same generated value — the value produced at the first match replaces
every occurrence at once (via `str.replace`), and the value generated for
the second match is discarded, so same-length occurrences share one value
instead of being independent. -/
theorem resolveRandomHex_spec (gen : Nat → Nat → List Char)
    (hgen : ∀ i n, (gen i n).length = 2 * n ∧ ∀ c ∈ gen i n, isLowerHex c = true)
    (ds pre mid post : List Char)
    (hds : ∀ c ∈ ds, c.isDigit = true) (hne : ds ≠ [])
    (hpre : ∀ c ∈ pre, c ≠ '$') (hmid : ∀ c ∈ mid, c ≠ '$')
    (hpost : ∀ c ∈ post, c ≠ '$') :
    findDirectives (pre ++ (dirPat ds ++ (mid ++ (dirPat ds ++ post)))) = [ds, ds] ∧
    resolveRandomHex gen (pre ++ (dirPat ds ++ (mid ++ (dirPat ds ++ post)))) =
      pre ++ ((gen 0 (digitsToNat ds)).take (digitsToNat ds) ++
        (mid ++ ((gen 0 (digitsToNat ds)).take (digitsToNat ds) ++ post))) ∧
    ((gen 0 (digitsToNat ds)).take (digitsToNat ds)).length = digitsToNat ds ∧
    (∀ c ∈ (gen 0 (digitsToNat ds)).take (digitsToNat ds), isLowerHex c = true) := by
  have hfind : findDirectives (pre ++ (dirPat ds ++ (mid ++ (dirPat ds ++ post)))) =
      [ds, ds] := by
    rw [findDirectives_skip pre hpre, findDirectives_dirPat ds hds hne,
      findDirectives_skip mid hmid, findDirectives_dirPat ds hds hne,
      findDirectives_noDollar post hpost]
  have hv0chars : ∀ c ∈ (gen 0 (digitsToNat ds)).take (digitsToNat ds),
      isLowerHex c = true := by
    intro c hc
    exact (hgen 0 (digitsToNat ds)).2 c (List.mem_of_mem_take hc)
  have hv0nd : ∀ c ∈ (gen 0 (digitsToNat ds)).take (digitsToNat ds), c ≠ '$' :=
    fun c hc => isLowerHex_ne_dollar c (hv0chars c hc)
  refine ⟨hfind, ?_, ?_, hv0chars⟩
  · unfold resolveRandomHex
    rw [hfind]
    show replaceAll (dirPat ds) ((gen 1 (digitsToNat ds)).take (digitsToNat ds))
      (replaceAll (dirPat ds) ((gen 0 (digitsToNat ds)).take (digitsToNat ds))
        (pre ++ (dirPat ds ++ (mid ++ (dirPat ds ++ post))))) = _
    have hstep0 : replaceAll (dirPat ds) ((gen 0 (digitsToNat ds)).take (digitsToNat ds))
        (pre ++ (dirPat ds ++ (mid ++ (dirPat ds ++ post)))) =
        pre ++ ((gen 0 (digitsToNat ds)).take (digitsToNat ds) ++
          (mid ++ ((gen 0 (digitsToNat ds)).take (digitsToNat ds) ++ post))) := by
      rw [replaceAll_skip_noDollar _ _ _ (dirPat_shape ds) pre _ hpre]
      rw [replaceAll_head_match _ _ _ (dirPat_ne_nil ds)]
      rw [replaceAll_skip_noDollar _ _ _ (dirPat_shape ds) mid _ hmid]
      rw [replaceAll_head_match _ _ _ (dirPat_ne_nil ds)]
      rw [replaceAll_noDollar _ _ _ (dirPat_shape ds) post hpost]
    rw [hstep0]
    exact replaceAll_noDollar _ _ _ (dirPat_shape ds) _
      (noDollar_append hpre (noDollar_append hv0nd
        (noDollar_append hmid (noDollar_append hv0nd hpost))))
  · rw [List.length_take, (hgen 0 (digitsToNat ds)).1]
    omega

theorem hexOracle_ok :
    ∀ i n, (hexOracle i n).length = 2 * n ∧ ∀ c ∈ hexOracle i n, isLowerHex c = true := by
  intro i n
  constructor
  · simp [hexOracle]
  · intro c hc
    have hc2 := List.eq_of_mem_replicate hc
    rw [hc2]
    by_cases hi : i = 0
    · rw [if_pos hi]; decide
    · rw [if_neg hi]; decide

/-- Witness for claim C3 at a concrete two-occurrence text and a
well-formed token-hex oracle. -/
theorem resolveRandomHex_spec_witness :
    findDirectives ("A: ".toList ++ (dirPat "4".toList ++
      (" B: ".toList ++ (dirPat "4".toList ++ [])))) = ["4".toList, "4".toList] ∧
    resolveRandomHex hexOracle ("A: ".toList ++ (dirPat "4".toList ++
      (" B: ".toList ++ (dirPat "4".toList ++ [])))) =
      "A: ".toList ++ ((hexOracle 0 (digitsToNat "4".toList)).take (digitsToNat "4".toList) ++
        (" B: ".toList ++
          ((hexOracle 0 (digitsToNat "4".toList)).take (digitsToNat "4".toList) ++ []))) ∧
    ((hexOracle 0 (digitsToNat "4".toList)).take (digitsToNat "4".toList)).length =
      digitsToNat "4".toList ∧
    (∀ c ∈ (hexOracle 0 (digitsToNat "4".toList)).take (digitsToNat "4".toList),
      isLowerHex c = true) := by
  exact resolveRandomHex_spec hexOracle hexOracle_ok "4".toList
    "A: ".toList " B: ".toList [] (by decide) (by decide) (by decide) (by decide) (by decide)

/-- Counterexample to claim C3 as stated: with a generator returning a
fresh value on each call, two same-length directive occurrences both
resolve to the value of the first call — the values are shared, not
independent. -/
theorem resolveRandomHex_shared_counterexample :
    resolveRandomHex cexGen cexHexText = "aaaa aaaa".toList ∧
    cexGen 0 4 ≠ cexGen 1 4 := by
  constructor
  · have htext : cexHexText =
        dirPat "4".toList ++ (" ".toList ++ (dirPat "4".toList ++ [])) := by decide
    have hfind : findDirectives cexHexText = ["4".toList, "4".toList] := by
      rw [htext]
      rw [findDirectives_dirPat "4".toList (by decide) (by decide),
        findDirectives_skip " ".toList (by decide),
        findDirectives_dirPat "4".toList (by decide) (by decide),
        findDirectives_nil]
    have hstep0 : replaceAll (dirPat "4".toList) ((cexGen 0 4).take 4) cexHexText =
        "aaaa aaaa".toList := by
      rw [htext]
      rw [replaceAll_head_match _ _ _ (dirPat_ne_nil _)]
      rw [replaceAll_skip_noDollar _ _ _ (dirPat_shape _) " ".toList _ (by decide)]
      rw [replaceAll_head_match _ _ _ (dirPat_ne_nil _)]
      rw [replaceAll_nil]
      decide
    have hstep1 : replaceAll (dirPat "4".toList) ((cexGen 1 4).take 4)
        ("aaaa aaaa".toList) = "aaaa aaaa".toList :=
      replaceAll_noDollar _ _ _ (dirPat_shape _) _ (by decide)
    unfold resolveRandomHex
    rw [hfind]
    show replaceAll (dirPat "4".toList) ((cexGen 1 4).take 4)
      (replaceAll (dirPat "4".toList) ((cexGen 0 4).take 4) cexHexText) =
      "aaaa aaaa".toList
    rw [hstep0, hstep1]
  · decide

end Caprover
